import Mathlib

/-!
# Breathing LED task (`breath.go`)

A shallow embedding of the `breath` package: the configuration type, the
`breather` record, the caller-facing `Breathe`/`Conf` methods and one pass of
the `breathe` goroutine's `for { select { ... } }` loop, together with the
integer arithmetic of the waveform step functions.

Conventions of the embedding:

* Go's `int` is a two's-complement integer of `intBits` bits (a parameter of
  the target), `uint32` arithmetic wraps modulo `2^32`.
* `float32` fields are carried as the exact rationals they denote; the two
  `float64` duty computations (`math.Sqrt`, `math.Pow`, `math.Exp`) are
  parameters of the machine, and `realMachine` instantiates them with exact
  real arithmetic.
* The channel `confCh` is kept inline in the record: the breather is the only
  holder of the channel, and a fresh one is made only after the handle has been
  reset to nil.
* A call of `Breathe` and one pass of the loop body are atomic moves
  (cooperative scheduling); a caller blocked in a channel send is recorded in
  the field `sending`.
-/

namespace Breath

/-! ## Data model -/

/-- The `Wave` enumeration. -/
inductive Wave where
  | Triangular
  | Circular
  | Gaussian
  | Hold
  | Stop
  deriving DecidableEq, Repr

/-- The `Conf` struct: `Delay` is a `time.Duration` in nanoseconds, `Smoothing`
a `uint16`, `Beta` and `Gamma` are `float32` values. -/
structure Conf where
  Pattern : Wave
  Delay : Int
  Smoothing : Nat
  Beta : ℚ
  Gamma : ℚ
  deriving DecidableEq, Repr

/-- A buffered channel `chan Conf` of capacity 1: its buffer and its closed flag. -/
structure Chan where
  buf : Option Conf
  closed : Bool
  deriving DecidableEq, Repr

/-- The `breather` struct. `Mutex` is the embedded `*sync.Mutex`: `none` is the
nil pointer, `some l` a pointer to a mutex that is locked iff `l`. `confCh` is
`none` for the nil channel. The `pwm` pointer is represented by the `Machine`
the operations take. -/
structure breather where
  Mutex : Option Bool
  pin : Nat
  pChan : Nat
  pattern : Wave
  delay : Int
  smoothing : Nat
  beta : ℚ
  gamma : ℚ
  step : Int
  lastStep : Int
  holding : Bool
  confCh : Option Chan
  deriving DecidableEq, Repr

/-- Run-time failures of the Go program. -/
inductive Fault where
  | nilDeref
  | sendOnClosed
  | closeOfClosed
  | divideByZero
  | unlockOfUnlocked
  | blockedForever
  deriving DecidableEq, Repr

/-- Calls made on the hardware, in order. -/
inductive Out where
  | pinConfigure (pin : Nat)
  | pwmConfigure
  | pwmSet (ch : Nat) (v : Nat)
  | pinLow (pin : Nat)
  deriving DecidableEq, Repr

/-- The target: the value `pwm.Top()` returns (a `uint32`), the width of `int`,
and the results of the two `float64` duty expressions of `stepCircular`
(arguments: top, step, smoothing) and `stepGaussian` (arguments: top, step,
smoothing, beta, gamma) after conversion to `uint32`. -/
structure Machine where
  top : Nat
  intBits : Nat
  circularDuty : Nat → Int → Nat → Nat
  gaussianDuty : Nat → Int → Nat → ℚ → ℚ → Nat

/-- The program state: the breather, the number of live goroutines running
`breathe`, the configuration of a caller blocked in `b.confCh <- conf` (if
any), and the trace of hardware calls. -/
structure Sys where
  b : breather
  tasks : Nat
  sending : Option Conf
  out : List Out
  deriving DecidableEq, Repr

/-! ## Machine arithmetic -/

/-- Two's-complement wrap of an integer to `w` bits. -/
def wrapInt (w : Nat) (x : Int) : Int :=
  (x + 2 ^ (w - 1)) % 2 ^ w - 2 ^ (w - 1)

/-- Conversion `uint32(x)` of a signed integer. -/
def toUint32 (x : Int) : Nat :=
  (x % 2 ^ 32).toNat

/-- Reduction modulo `2^32`. -/
def u32 (n : Nat) : Nat :=
  n % 2 ^ 32

/-- The function `abs(i int) uint32`. -/
def abs (w : Nat) (i : Int) : Nat :=
  if i < 0 then toUint32 (wrapInt w (-i)) else toUint32 i

/-- The `uint32` expression `Top * (1.0 - (2*(abs(step)/Top) - 1.0))` of
`stepTriangular`, for `Top ≠ 0`. -/
def triangularDuty (w : Nat) (top : Nat) (step : Int) : Nat :=
  let q := abs w step / top
  let a := u32 (2 * q)
  let m := u32 (a + 2 ^ 32 - 1)
  let d := u32 (1 + 2 ^ 32 - m)
  u32 (top * d)

/-! ## Operations -/

/-- The constructor `New(pin, pwm)`; `pChan` is the channel number that
`pwm.Channel(pin)` returned. -/
def New (pin : Nat) (pChan : Nat) : Sys :=
  { b :=
      { Mutex := none, pin := pin, pChan := pChan, pattern := Wave.Triangular, delay := 0,
        smoothing := 0, beta := 0, gamma := 0, step := 0, lastStep := 0, holding := false,
        confCh := none }
    tasks := 0
    sending := none
    out := [Out.pinConfigure pin, Out.pwmConfigure] }

/-- The method `Conf()`. -/
def breather.Conf (b : breather) : Breath.Conf :=
  { Pattern := b.pattern, Smoothing := b.smoothing, Delay := b.delay, Beta := b.beta,
    Gamma := b.gamma }

/-- The method `Lock` of `*sync.Mutex`. -/
def lock : Option Bool → Except Fault (Option Bool)
  | none => Except.error Fault.nilDeref
  | some true => Except.error Fault.blockedForever
  | some false => Except.ok (some true)

/-- The method `Unlock` of `*sync.Mutex`. -/
def unlock : Option Bool → Except Fault (Option Bool)
  | none => Except.error Fault.nilDeref
  | some false => Except.error Fault.unlockOfUnlocked
  | some true => Except.ok (some false)

/-- The method `Breathe(conf)`. A send on a full buffer leaves the caller
blocked with `sending = some conf`. -/
def Breathe (conf : Conf) (s : Sys) : Except Fault Sys :=
  match conf.Pattern with
  | Wave.Stop =>
    match s.b.confCh with
    | some ch =>
      match lock s.b.Mutex with
      | Except.error e => Except.error e
      | Except.ok m1 =>
        if ch.closed then Except.error Fault.closeOfClosed
        else
          match unlock m1 with
          | Except.error e => Except.error e
          | Except.ok m2 =>
            Except.ok { s with b := { s.b with Mutex := m2, confCh := some { ch with closed := true } } }
    | none => Except.ok s
  | _ =>
    match s.b.confCh with
    | some ch =>
      if ch.closed then Except.error Fault.sendOnClosed
      else
        match ch.buf with
        | none => Except.ok { s with b := { s.b with confCh := some { ch with buf := some conf } } }
        | some _ => Except.ok { s with sending := some conf }
    | none =>
      Except.ok
        { s with
          b := { s.b with confCh := some { buf := some conf, closed := false } }
          tasks := s.tasks + 1 }

/-- The method `incrementStep`. -/
def incrementStep (hw : Machine) (b : breather) : breather :=
  let s := wrapInt hw.intBits (b.step + 1)
  if s = wrapInt hw.intBits (hw.top : Int) then { b with step := wrapInt hw.intBits (-s) }
  else { b with step := s }

/-- The method `stepTriangular`; `now` is the value of `time.Now()`. -/
def stepTriangular (hw : Machine) (now : Int) (s : Sys) : Except Fault Sys :=
  if s.b.holding then Except.ok s
  else if hw.top = 0 then Except.error Fault.divideByZero
  else
    Except.ok
      { s with
        b := incrementStep hw { s.b with lastStep := now }
        out := s.out ++ [Out.pwmSet s.b.pChan (triangularDuty hw.intBits hw.top s.b.step)] }

/-- The method `stepCircular`. -/
def stepCircular (hw : Machine) (now : Int) (s : Sys) : Except Fault Sys :=
  if s.b.holding then Except.ok s
  else
    Except.ok
      { s with
        b := incrementStep hw { s.b with lastStep := now }
        out := s.out ++ [Out.pwmSet s.b.pChan (hw.circularDuty hw.top s.b.step s.b.smoothing)] }

/-- The method `stepGaussian`. -/
def stepGaussian (hw : Machine) (now : Int) (s : Sys) : Except Fault Sys :=
  if s.b.holding then Except.ok s
  else
    Except.ok
      { s with
        b := incrementStep hw { s.b with lastStep := now }
        out :=
          s.out ++
            [Out.pwmSet s.b.pChan
              (hw.gaussianDuty hw.top s.b.step s.b.smoothing s.b.beta s.b.gamma)] }

/-- The `default` branch of the `select` in `breathe`: `elapsed` is the value
of `time.Since(b.lastStep)`, `now` the value of `time.Now()`. -/
def tick (hw : Machine) (elapsed now : Int) (s : Sys) : Except Fault Sys :=
  if elapsed ≥ s.b.delay then
    match s.b.pattern with
    | Wave.Triangular => stepTriangular hw now s
    | Wave.Circular => stepCircular hw now s
    | Wave.Gaussian => stepGaussian hw now s
    | Wave.Hold => Except.ok { s with b := { s.b with holding := true } }
    | Wave.Stop => Except.ok s
  else Except.ok s

/-- The `else` branch of the receive case of `breathe`: the received
configuration is stored in the breather. -/
def applyConf (cnf : Conf) (b : breather) : breather :=
  { b with
    holding := if b.holding = true ∧ cnf.Pattern ≠ Wave.Hold then false else b.holding
    pattern := cnf.Pattern
    delay := cnf.Delay
    smoothing := cnf.Smoothing
    beta := cnf.Beta
    gamma := cnf.Gamma }

/-- The `!ok` branch of the receive case of `breathe`: the pin goes low, the
handle is reset under the lock and the goroutine exits. -/
def cleanup (s : Sys) : Except Fault Sys :=
  match lock s.b.Mutex with
  | Except.error e => Except.error e
  | Except.ok m1 =>
    match unlock m1 with
    | Except.error e => Except.error e
    | Except.ok m2 =>
      Except.ok
        { b := { s.b with Mutex := m2, confCh := none }
          tasks := s.tasks - 1
          sending := s.sending
          out := s.out ++ [Out.pinLow s.b.pin] }

/-- One pass of the loop body of `breathe`. A receive on the nil channel or on
an open empty channel is not ready, so the `default` branch runs; a buffered
value is received (and the value of a blocked sender moves into the buffer); a
closed empty channel yields `ok = false`. -/
def breathe_iter (hw : Machine) (elapsed now : Int) (s : Sys) : Except Fault Sys :=
  match s.b.confCh with
  | none => tick hw elapsed now s
  | some ch =>
    match ch.buf with
    | some cnf =>
      Except.ok
        { s with
          b := applyConf cnf { s.b with confCh := some { ch with buf := s.sending } }
          sending := none }
    | none => if ch.closed then cleanup s else tick hw elapsed now s

/-- The moves of the program: a call `Breathe(c)` by a caller that is not
blocked, or one pass of the loop by a live task. A move that panics has no
successor. -/
inductive Step (hw : Machine) : Sys → Sys → Prop where
  | call (c : Conf) {s t : Sys} (free : s.sending = none) (h : Breathe c s = Except.ok t) :
      Step hw s t
  | iter (elapsed now : Int) {s t : Sys} (live : 0 < s.tasks)
      (h : breathe_iter hw elapsed now s = Except.ok t) : Step hw s t

/-- States reached from `s₀` by finitely many moves. -/
inductive Reachable (hw : Machine) (s₀ : Sys) : Sys → Prop where
  | init : Reachable hw s₀ s₀
  | step {s t : Sys} (before : Reachable hw s₀ s) (next : Step hw s t) : Reachable hw s₀ t

/-- A breather with no task: nil handle, no goroutine, no blocked caller. -/
def Idle (s : Sys) : Prop :=
  s.b.confCh = none ∧ s.tasks = 0 ∧ s.sending = none

/-- The configuration `Conf{Pattern: Stop}`. -/
def stopConf : Conf :=
  { Pattern := Wave.Stop, Delay := 0, Smoothing := 0, Beta := 0, Gamma := 0 }

/-- The configuration `bouncy` of `example/main.go`. -/
def bouncy : Conf :=
  { Pattern := Wave.Circular, Delay := 1000000, Smoothing := 750, Beta := 0, Gamma := 0 }

/-- The configuration `pingy` of `example/main.go` (`Beta: 0.5`, `Gamma: 0.01`).
`Gamma` is the `float32` nearest to `0.01`, which is `5368709 / 2^29`; `0.5` is
a `float32` itself. -/
def pingy : Conf :=
  { Pattern := Wave.Gaussian, Delay := 1000000, Smoothing := 750, Beta := 1 / 2,
    Gamma := 5368709 / 536870912 }

/-- A target with 32-bit `int` whose PWM counter tops at `65535`; the
floating-point duty values are not used by the statements made about it. -/
def target16 : Machine :=
  { top := 65535, intBits := 32, circularDuty := fun _ _ _ => 0,
    gaussianDuty := fun _ _ _ _ _ => 0 }

/-- The link between the handle, the task count and a blocked caller: with a
nil handle there is no task and nobody is blocked; with a handle there is one
task, and a caller is blocked only on a full buffer. -/
def Inv (s : Sys) : Prop :=
  (s.b.confCh = none → s.tasks = 0 ∧ s.sending = none) ∧
    ∀ ch, s.b.confCh = some ch → s.tasks = 1 ∧ (ch.buf = none → s.sending = none)

/-- On the breather `New` returns the mutex stays nil, and therefore the
channel is never closed: a stopping `Breathe` cannot get past `b.Lock()`. -/
def NilMutexInv (s : Sys) : Prop :=
  s.b.Mutex = none ∧ ∀ ch, s.b.confCh = some ch → ch.closed = false

/-- A configuration with pattern `Hold`. -/
def holdConf : Conf :=
  { Pattern := Wave.Hold, Delay := 1000000, Smoothing := 750, Beta := 0, Gamma := 0 }

/-! ## The floating-point duty expressions in exact arithmetic -/

/-- The argument of `math.Sqrt` in `stepCircular`,
`1.0 - math.Pow(math.Abs(2.0*(step/smoothing) - 1.0), 2.0)`, in exact rational
arithmetic. -/
def circularRadicand (step : Int) (smoothing : Nat) : ℚ :=
  1 - |2 * ((step : ℚ) / (smoothing : ℚ)) - 1| ^ 2

/-- The value `stepCircular` passes to `pwm.Set`,
`uint32(float64(Top) * math.Sqrt(radicand))`, with the `float64` operations
replaced by exact real arithmetic; the conversion to `uint32` truncates. This is
an idealisation: `float64` rounds every operation, so the truncated value the
program writes can be one below this one (it is the same wherever the radicand
and its root are exactly representable, as at step `0` and at step `r/2`), and
where the radicand is negative `math.Sqrt` returns NaN, which this function
does not represent. -/
noncomputable def circularDutyReal (top : Nat) (step : Int) (smoothing : Nat) : Nat :=
  ⌊(top : ℝ) * Real.sqrt ((circularRadicand step smoothing : ℚ) : ℝ)⌋₊

/-- The argument of `math.Exp` in `stepGaussian`,
`-(math.Pow((step/smoothing - beta)/gamma, 2.0)) / 2.0`, in exact rational
arithmetic. -/
def gaussianExponent (step : Int) (smoothing : Nat) (beta gamma : ℚ) : ℚ :=
  -((((step : ℚ) / (smoothing : ℚ)) - beta) / gamma) ^ 2 / 2

/-- The value `stepGaussian` passes to `pwm.Set`,
`uint32(float64(Top) * math.Exp(exponent))`, with the `float64` operations
replaced by exact real arithmetic. This is an idealisation: `float64` rounds
every operation, so the value the program writes can differ from this one by
rounding (for instance `math.Exp` of a tiny negative exponent is exactly `1.0`).
Where `smoothing` or `gamma` is zero the `float64` quotient is infinite, the
exponent is `-Inf` and `math.Exp` returns `0`, so the duty is `0` (for a
quotient `0/0` the result is NaN, whose conversion the language leaves to the
implementation; it is taken as `0` too). -/
noncomputable def gaussianDutyReal (top : Nat) (step : Int) (smoothing : Nat)
    (beta gamma : ℚ) : Nat :=
  if smoothing = 0 ∨ gamma = 0 then 0
  else ⌊(top : ℝ) * Real.exp ((gaussianExponent step smoothing beta gamma : ℚ) : ℝ)⌋₊

/-- The target whose `float64` duty expressions are evaluated in real
arithmetic. -/
noncomputable def realMachine (top w : Nat) : Machine :=
  { top := top, intBits := w, circularDuty := circularDutyReal,
    gaussianDuty := gaussianDutyReal }

/-- The step counter after `n` calls of `incrementStep` from step `0`. -/
def stepAfter (hw : Machine) (n : Nat) : Int :=
  ((incrementStep hw)^[n] (New 0 0).b).step

/-- Nothing in the program carries the pattern `Stop`: not the stored pattern,
not the buffered configuration, not the configuration of a blocked sender. -/
def NoStop (s : Sys) : Prop :=
  s.b.pattern ≠ Wave.Stop ∧
    (∀ ch c, s.b.confCh = some ch → ch.buf = some c → c.Pattern ≠ Wave.Stop) ∧
    ∀ c, s.sending = some c → c.Pattern ≠ Wave.Stop

/-- The flag `holding` is set only in pattern `Hold`. -/
def HoldInv (s : Sys) : Prop :=
  s.b.holding = true → s.b.pattern = Wave.Hold

/-- A target with 32-bit `int` whose PWM counter tops at `0`. -/
def targetZero : Machine :=
  { top := 0, intBits := 32, circularDuty := fun _ _ _ => 0,
    gaussianDuty := fun _ _ _ _ _ => 0 }

/-- A configuration with pattern `Triangular`. -/
def triConf : Conf :=
  { Pattern := Wave.Triangular, Delay := 1000000, Smoothing := 750, Beta := 0, Gamma := 0 }

/-! ## Arithmetic lemmas -/

theorem wrapInt_of_range {w : Nat} (hw : 0 < w) {x : Int}
    (lo : -(2 ^ (w - 1) : Int) ≤ x) (hi : x < 2 ^ (w - 1)) : wrapInt w x = x := by
  unfold wrapInt
  have h2 : (2 : Int) ^ w = 2 * 2 ^ (w - 1) := by
    obtain ⟨k, rfl⟩ : ∃ k, w = k + 1 := ⟨w - 1, by omega⟩
    simp [pow_succ, mul_comm]
  rw [h2, Int.emod_eq_of_lt (by omega) (by omega)]
  omega

/-- Below the top value the step counter simply counts up from `0`. -/
theorem iterate_incrementStep_lt (hw : Machine) (hbits : 0 < hw.intBits)
    (htop : (hw.top : Int) < 2 ^ (hw.intBits - 1)) (b : breather) (hb : b.step = 0) :
    ∀ n : Nat, n < hw.top → ((incrementStep hw)^[n] b).step = n := by
  intro n
  induction n with
  | zero => intro _; simpa using hb
  | succ k ih =>
    intro hk
    have ihk := ih (by omega)
    rw [Function.iterate_succ_apply']
    have hpos : (0 : Int) < 2 ^ (hw.intBits - 1) := by positivity
    have e1 : wrapInt hw.intBits ((k : Int) + 1) = k + 1 :=
      wrapInt_of_range hbits (by omega) (by omega)
    have e2 : wrapInt hw.intBits (hw.top : Int) = hw.top :=
      wrapInt_of_range hbits (by omega) htop
    simp only [incrementStep, ihk, e1, e2]
    have : ((k : Int) + 1) ≠ hw.top := by omega
    simp [this]

/-! ## Stop and restart -/

/-- With a nil mutex, `Breathe(Conf{Pattern: Stop})` on a breather whose handle
is not nil fails in `b.Lock()`. -/
theorem Breathe_stop_nil_mutex (s : Sys) (ch : Chan) (hm : s.b.Mutex = none)
    (hch : s.b.confCh = some ch) : Breathe stopConf s = Except.error Fault.nilDeref := by
  simp [Breathe, stopConf, hm, hch, lock]

/-- With a nil mutex, the cleanup path of the task fails in `b.Lock()`. -/
theorem cleanup_nil_mutex (s : Sys) (hm : s.b.Mutex = none) :
    cleanup s = Except.error Fault.nilDeref := by
  simp [cleanup, hm, lock]

/-- C1 (the code departs from the claim): on the breather `New` returns, after
`Breathe(bouncy)` has started the task (one live unit, channel open),
`Breathe(Conf{Pattern: Stop})` does not close the channel: it panics with a nil
pointer dereference in `b.Lock()`, because `New` leaves the embedded
`*sync.Mutex` nil. -/
theorem C1_stop_on_new_breather_panics :
    ∃ s1 : Sys, Breathe bouncy (New 13 0) = Except.ok s1 ∧ s1.tasks = 1 ∧
      s1.b.confCh = some { buf := some bouncy, closed := false } ∧ s1.b.Mutex = none ∧
      Breathe stopConf s1 = Except.error Fault.nilDeref ∧
      cleanup s1 = Except.error Fault.nilDeref :=
  ⟨_, rfl, rfl, rfl, rfl, rfl, rfl⟩

/-! ## Step counter and triangular duty -/

/-- C3 (the code departs from the claim): with `Smoothing = 750` applied and a
PWM top value of `65535`, 751 calls of `incrementStep` from step `0` give step
`751`, which is above the resolution: the counter is compared with `pwm.Top()`
and never with `Smoothing`. -/
theorem C3_step_exceeds_smoothing :
    (applyConf bouncy (New 13 0).b).smoothing = 750 ∧
      ((incrementStep target16)^[751] (applyConf bouncy (New 13 0).b)).step = 751 ∧
      ¬ ((751 : Int) ≤ 750) := by
  refine ⟨rfl, ?_, by decide⟩
  have h := iterate_incrementStep_lt target16 (by decide) (by decide)
    (applyConf bouncy (New 13 0).b) rfl 751 (by decide)
  exact h

/-- C4 (the code departs from the claim): with a PWM top value of `65535` and
step `0`, `stepTriangular` passes `131070` to `pwm.Set`, twice the top value:
the integer quotient `abs(step)/Top` is `0`, and `1 - (0 - 1)` is `2` in
`uint32` arithmetic. -/
theorem C4_triangular_duty_exceeds_top :
    ∃ t : Sys, stepTriangular target16 5 (New 13 0) = Except.ok t ∧
      t.out = (New 13 0).out ++ [Out.pwmSet 0 131070] ∧ ¬ (131070 ≤ target16.top) :=
  ⟨_, rfl, rfl, by decide⟩

/-! ## Effects of one pass of the loop -/

theorem incrementStep_frame (hw : Machine) (b : breather) :
    (incrementStep hw b).Conf = b.Conf ∧ (incrementStep hw b).confCh = b.confCh ∧
      (incrementStep hw b).Mutex = b.Mutex ∧ (incrementStep hw b).holding = b.holding := by
  unfold incrementStep
  dsimp only
  split <;> exact ⟨rfl, rfl, rfl, rfl⟩

/-- What the `default` branch leaves alone: the stored configuration, the
handle, the mutex, the number of tasks and a blocked sender. -/
theorem tick_frame (hw : Machine) (elapsed now : Int) (s t : Sys)
    (h : tick hw elapsed now s = Except.ok t) :
    t.b.Conf = s.b.Conf ∧ t.b.confCh = s.b.confCh ∧ t.b.Mutex = s.b.Mutex ∧
      t.tasks = s.tasks ∧ t.sending = s.sending := by
  unfold tick at h
  split at h
  · split at h
    · unfold stepTriangular at h
      split at h
      · cases h; exact ⟨rfl, rfl, rfl, rfl, rfl⟩
      · split at h
        · cases h
        · cases h
          obtain ⟨h1, h2, h3, _⟩ := incrementStep_frame hw { s.b with lastStep := now }
          exact ⟨h1, h2, h3, rfl, rfl⟩
    · unfold stepCircular at h
      split at h
      · cases h; exact ⟨rfl, rfl, rfl, rfl, rfl⟩
      · cases h
        obtain ⟨h1, h2, h3, _⟩ := incrementStep_frame hw { s.b with lastStep := now }
        exact ⟨h1, h2, h3, rfl, rfl⟩
    · unfold stepGaussian at h
      split at h
      · cases h; exact ⟨rfl, rfl, rfl, rfl, rfl⟩
      · cases h
        obtain ⟨h1, h2, h3, _⟩ := incrementStep_frame hw { s.b with lastStep := now }
        exact ⟨h1, h2, h3, rfl, rfl⟩
    · cases h; exact ⟨rfl, rfl, rfl, rfl, rfl⟩
    · cases h; exact ⟨rfl, rfl, rfl, rfl, rfl⟩
  · cases h; exact ⟨rfl, rfl, rfl, rfl, rfl⟩

/-- The `default` branch returns whenever the PWM top value is not zero (the
only failure is the integer division by `Top` in `stepTriangular`). -/
theorem tick_returns (hw : Machine) (elapsed now : Int) (s : Sys) (htop : 0 < hw.top) :
    ∃ t, tick hw elapsed now s = Except.ok t := by
  have hne : hw.top ≠ 0 := by omega
  unfold tick
  split
  · split
    · unfold stepTriangular
      split
      · exact ⟨_, rfl⟩
      · simp only [if_neg hne]; exact ⟨_, rfl⟩
    · unfold stepCircular
      split <;> exact ⟨_, rfl⟩
    · unfold stepGaussian
      split <;> exact ⟨_, rfl⟩
    · exact ⟨_, rfl⟩
    · exact ⟨_, rfl⟩
  · exact ⟨_, rfl⟩

/-- One pass of the loop with a configuration in the buffer applies it. -/
theorem breathe_iter_receive (hw : Machine) (elapsed now : Int) (s : Sys) (ch : Chan)
    (cnf : Conf) (hch : s.b.confCh = some ch) (hbuf : ch.buf = some cnf) :
    breathe_iter hw elapsed now s =
      Except.ok
        { s with
          b := applyConf cnf { s.b with confCh := some { ch with buf := s.sending } }
          sending := none } := by
  simp [breathe_iter, hch, hbuf]

/-- C5: when the task receives a configuration `c` from the channel (in any
state, for any `c`), `Conf()` afterwards returns `c`, equal in all five fields;
the `default` branch of the loop (a cadence tick) never changes what `Conf()`
returns, and it returns whenever the PWM top value is positive. -/
theorem C5_conf_reads_last_applied (hw : Machine) (elapsed now : Int) (s : Sys) (ch : Chan)
    (c : Conf) (hch : s.b.confCh = some ch) (hbuf : ch.buf = some c) :
    (∃ t, breathe_iter hw elapsed now s = Except.ok t ∧ t.b.Conf = c ∧
        t.b.Conf.Pattern = c.Pattern ∧ t.b.Conf.Delay = c.Delay ∧
        t.b.Conf.Smoothing = c.Smoothing ∧ t.b.Conf.Beta = c.Beta ∧
        t.b.Conf.Gamma = c.Gamma) ∧
      ∀ (u : Sys) (e n : Int),
        (∀ t, tick hw e n u = Except.ok t → t.b.Conf = u.b.Conf) ∧
          (0 < hw.top → ∃ t, tick hw e n u = Except.ok t) := by
  refine ⟨⟨_, breathe_iter_receive hw elapsed now s ch c hch hbuf, rfl, rfl, rfl, rfl, rfl, rfl⟩, ?_⟩
  intro u e n
  exact ⟨fun t ht => (tick_frame hw e n u t ht).1, tick_returns hw e n u⟩

theorem C5_conf_reads_last_applied_witness :
    (∃ t, breathe_iter target16 0 0
          { New 13 0 with b := { (New 13 0).b with confCh := some ⟨some pingy, false⟩ } } =
        Except.ok t ∧ t.b.Conf = pingy ∧
        t.b.Conf.Pattern = pingy.Pattern ∧ t.b.Conf.Delay = pingy.Delay ∧
        t.b.Conf.Smoothing = pingy.Smoothing ∧ t.b.Conf.Beta = pingy.Beta ∧
        t.b.Conf.Gamma = pingy.Gamma) ∧
      ∀ (u : Sys) (e n : Int),
        (∀ t, tick target16 e n u = Except.ok t → t.b.Conf = u.b.Conf) ∧
          (0 < target16.top → ∃ t, tick target16 e n u = Except.ok t) :=
  C5_conf_reads_last_applied target16 0 0
    { New 13 0 with b := { (New 13 0).b with confCh := some ⟨some pingy, false⟩ } }
    ⟨some pingy, false⟩ pingy rfl rfl

/-- C6: in every state with `holding = true` or `pattern = Hold`, the `default`
branch of the loop returns, whatever the elapsed time, with no call added to
the hardware trace (no `pwm.Set`) and with `step` and `lastStep` unchanged;
and receiving a later configuration whose pattern is not `Hold` leaves `step`
and the trace unchanged while clearing `holding`, so stepping resumes from the
frozen step. -/
theorem C6_hold_freezes (hw : Machine) (elapsed now : Int) (s : Sys)
    (h : s.b.holding = true ∨ s.b.pattern = Wave.Hold) :
    (∃ t, tick hw elapsed now s = Except.ok t ∧ t.out = s.out ∧ t.b.step = s.b.step ∧
        t.b.lastStep = s.b.lastStep) ∧
      ∀ (ch : Chan) (cnf : Conf), s.b.confCh = some ch → ch.buf = some cnf →
        cnf.Pattern ≠ Wave.Hold →
        ∃ t, breathe_iter hw elapsed now s = Except.ok t ∧ t.b.step = s.b.step ∧
          t.out = s.out ∧ t.b.holding = false ∧ t.b.pattern = cnf.Pattern := by
  constructor
  · unfold tick
    split
    · rcases h with h | h
      · split
        · exact ⟨s, by simp [stepTriangular, h], rfl, rfl, rfl⟩
        · exact ⟨s, by simp [stepCircular, h], rfl, rfl, rfl⟩
        · exact ⟨s, by simp [stepGaussian, h], rfl, rfl, rfl⟩
        · exact ⟨_, rfl, rfl, rfl, rfl⟩
        · exact ⟨_, rfl, rfl, rfl, rfl⟩
      · simp only [h]
        exact ⟨_, rfl, rfl, rfl, rfl⟩
    · exact ⟨_, rfl, rfl, rfl, rfl⟩
  · intro ch cnf hch hbuf hne
    refine ⟨_, breathe_iter_receive hw elapsed now s ch cnf hch hbuf, rfl, rfl, ?_, rfl⟩
    cases hh : s.b.holding <;> simp [applyConf, hh, hne]


theorem C6_hold_freezes_witness :
    ((false = true) ∨ Wave.Hold = Wave.Hold) ∧
      ((∃ t,
          tick target16 2000000 7
              { New 13 0 with
                b :=
                  { (New 13 0).b with
                    pattern := Wave.Hold
                    step := 42
                    confCh := some { buf := some bouncy, closed := false } }
                tasks := 1 } =
            Except.ok t ∧
          t.out = (New 13 0).out ∧ t.b.step = 42 ∧ t.b.lastStep = 0) ∧
        ∀ (ch : Chan) (cnf : Conf),
          some ({ buf := some bouncy, closed := false } : Chan) = some ch → ch.buf = some cnf →
          cnf.Pattern ≠ Wave.Hold →
          ∃ t,
            breathe_iter target16 2000000 7
                { New 13 0 with
                  b :=
                    { (New 13 0).b with
                      pattern := Wave.Hold
                      step := 42
                      confCh := some { buf := some bouncy, closed := false } }
                  tasks := 1 } =
              Except.ok t ∧
            t.b.step = 42 ∧ t.out = (New 13 0).out ∧ t.b.holding = false ∧
              t.b.pattern = cnf.Pattern) :=
  ⟨Or.inr rfl,
    C6_hold_freezes target16 2000000 7
      { New 13 0 with
        b :=
          { (New 13 0).b with
            pattern := Wave.Hold
            step := 42
            confCh := some { buf := some bouncy, closed := false } }
        tasks := 1 }
      (Or.inr rfl)⟩

/-! ## The cases of `Breathe` -/

theorem Breathe_start (c : Conf) (s : Sys) (hc : c.Pattern ≠ Wave.Stop)
    (hch : s.b.confCh = none) :
    Breathe c s =
      Except.ok
        { s with
          b := { s.b with confCh := some { buf := some c, closed := false } }
          tasks := s.tasks + 1 } := by
  cases hp : c.Pattern <;> simp_all [Breathe]

theorem Breathe_send_empty (c : Conf) (s : Sys) (ch : Chan) (hc : c.Pattern ≠ Wave.Stop)
    (hch : s.b.confCh = some ch) (hopen : ch.closed = false) (hbuf : ch.buf = none) :
    Breathe c s =
      Except.ok { s with b := { s.b with confCh := some { ch with buf := some c } } } := by
  cases hp : c.Pattern <;> simp_all [Breathe]

theorem Breathe_send_full (c x : Conf) (s : Sys) (ch : Chan) (hc : c.Pattern ≠ Wave.Stop)
    (hch : s.b.confCh = some ch) (hopen : ch.closed = false) (hbuf : ch.buf = some x) :
    Breathe c s = Except.ok { s with sending := some c } := by
  cases hp : c.Pattern <;> simp_all [Breathe]

theorem Breathe_send_closed (c : Conf) (s : Sys) (ch : Chan) (hc : c.Pattern ≠ Wave.Stop)
    (hch : s.b.confCh = some ch) (hclosed : ch.closed = true) :
    Breathe c s = Except.error Fault.sendOnClosed := by
  cases hp : c.Pattern <;> simp_all [Breathe]

theorem Breathe_stop_idle (c : Conf) (s : Sys) (hc : c.Pattern = Wave.Stop)
    (hch : s.b.confCh = none) : Breathe c s = Except.ok s := by
  simp [Breathe, hc, hch]

theorem Breathe_stop_running (c : Conf) (s : Sys) (ch : Chan) (hc : c.Pattern = Wave.Stop)
    (hch : s.b.confCh = some ch) (hm : s.b.Mutex = some false) (hopen : ch.closed = false) :
    Breathe c s =
      Except.ok
        { s with b := { s.b with Mutex := some false, confCh := some { ch with closed := true } } } := by
  simp [Breathe, hc, hch, hm, lock, unlock, hopen]

/-- Whenever a stopping `Breathe` returns on a breather with a handle, the
mutex was initialised and unlocked and the channel was open. -/
theorem Breathe_stop_ok_inv (c : Conf) (s t : Sys) (ch : Chan) (hc : c.Pattern = Wave.Stop)
    (hch : s.b.confCh = some ch) (h : Breathe c s = Except.ok t) :
    s.b.Mutex = some false ∧ ch.closed = false := by
  rcases hm : s.b.Mutex with _ | _ | _ <;> cases hcl : ch.closed <;>
    simp [Breathe, hc, hch, hm, lock, unlock, hcl] at h ⊢


/-! ## One task per breather -/

theorem Inv_of_Idle (s : Sys) (h : Idle s) : Inv s := by
  obtain ⟨h1, h2, h3⟩ := h
  exact ⟨fun _ => ⟨h2, h3⟩, fun ch hch => by rw [h1] at hch; cases hch⟩

theorem Inv_Breathe (c : Conf) (s t : Sys) (hs : Inv s) (free : s.sending = none)
    (h : Breathe c s = Except.ok t) : Inv t := by
  obtain ⟨h1, h2⟩ := hs
  by_cases hc : c.Pattern = Wave.Stop
  · cases hch : s.b.confCh with
    | none =>
      rw [Breathe_stop_idle c s hc hch] at h
      cases h
      exact ⟨h1, h2⟩
    | some ch =>
      obtain ⟨hm, hopen⟩ := Breathe_stop_ok_inv c s t ch hc hch h
      rw [Breathe_stop_running c s ch hc hch hm hopen] at h
      cases h
      obtain ⟨ht, hb⟩ := h2 ch hch
      refine ⟨fun hn => by simp at hn, fun ch2 h2 => ?_⟩
      simp only [Option.some.injEq] at h2
      subst h2
      exact ⟨ht, fun _ => free⟩
  · cases hch : s.b.confCh with
    | none =>
      rw [Breathe_start c s hc hch] at h
      cases h
      obtain ⟨ht, _⟩ := h1 hch
      refine ⟨fun hn => by simp at hn, fun ch2 h2 => ?_⟩
      simp only [Option.some.injEq] at h2
      subst h2
      exact ⟨by simp [ht], fun hb => by simp at hb⟩
    | some ch =>
      obtain ⟨ht, _⟩ := h2 ch hch
      cases hcl : ch.closed with
      | true =>
        rw [Breathe_send_closed c s ch hc hch hcl] at h
        cases h
      | false =>
        cases hbuf : ch.buf with
        | none =>
          rw [Breathe_send_empty c s ch hc hch hcl hbuf] at h
          cases h
          refine ⟨fun hn => by simp at hn, fun ch2 h2 => ?_⟩
          simp only [Option.some.injEq] at h2
          subst h2
          exact ⟨ht, fun _ => free⟩
        | some x =>
          rw [Breathe_send_full c x s ch hc hch hcl hbuf] at h
          cases h
          refine ⟨fun hn => by simp [hch] at hn, fun ch2 h2 => ?_⟩
          simp only [hch, Option.some.injEq] at h2
          subst h2
          exact ⟨ht, fun hb => by simp [hbuf] at hb⟩

theorem cleanup_ok_inv (s t : Sys) (h : cleanup s = Except.ok t) :
    s.b.Mutex = some false ∧ t.b.confCh = none ∧ t.tasks = s.tasks - 1 ∧
      t.sending = s.sending ∧ t.out = s.out ++ [Out.pinLow s.b.pin] ∧ t.b.step = s.b.step ∧
      t.b.holding = s.b.holding ∧ t.b.Conf = s.b.Conf ∧ t.b.Mutex = some false := by
  rcases hm : s.b.Mutex with _ | _ | _ <;> simp [cleanup, hm, lock, unlock] at h
  subst h
  exact ⟨rfl, rfl, rfl, rfl, rfl, rfl, rfl, rfl, rfl⟩

theorem Inv_breathe_iter (hw : Machine) (elapsed now : Int) (s t : Sys) (hs : Inv s)
    (h : breathe_iter hw elapsed now s = Except.ok t) : Inv t := by
  obtain ⟨h1, h2⟩ := hs
  have viaTick : tick hw elapsed now s = Except.ok t → Inv t := by
    intro hk
    obtain ⟨_, f2, _, f4, f5⟩ := tick_frame hw elapsed now s t hk
    exact ⟨fun hn => by rw [f4, f5]; exact h1 (f2 ▸ hn),
      fun ch hch => by rw [f4, f5]; exact h2 ch (f2 ▸ hch)⟩
  cases hch : s.b.confCh with
  | none =>
    simp only [breathe_iter, hch] at h
    exact viaTick h
  | some ch =>
    obtain ⟨ht, hb⟩ := h2 ch hch
    cases hbuf : ch.buf with
    | some cnf =>
      rw [breathe_iter_receive hw elapsed now s ch cnf hch hbuf] at h
      cases h
      refine ⟨fun hn => by simp [applyConf] at hn, fun ch2 h2 => ?_⟩
      exact ⟨ht, fun _ => rfl⟩
    | none =>
      simp only [breathe_iter, hch, hbuf] at h
      cases hcl : ch.closed with
      | true =>
        simp only [hcl, if_true] at h
        obtain ⟨_, c2, c3, c4, _⟩ := cleanup_ok_inv s t h
        refine ⟨fun _ => ⟨by omega, by rw [c4]; exact hb hbuf⟩, fun ch2 h2 => ?_⟩
        rw [c2] at h2
        cases h2
      | false =>
        simp only [hcl] at h
        exact viaTick h

theorem Inv_Step (hw : Machine) (s t : Sys) (hs : Inv s) (h : Step hw s t) : Inv t := by
  cases h with
  | call c free h => exact Inv_Breathe c s t hs free h
  | iter elapsed now live h => exact Inv_breathe_iter hw elapsed now s t hs h

/-- From an idle breather, every reachable state satisfies the invariant. -/
theorem Inv_Reachable (hw : Machine) (s₀ s : Sys) (h0 : Idle s₀) (hr : Reachable hw s₀ s) :
    Inv s := by
  induction hr with
  | init => exact Inv_of_Idle s₀ h0
  | step _ next ih => exact Inv_Step hw _ _ ih next

theorem Inv_tasks_le_one (s : Sys) (hs : Inv s) : s.tasks ≤ 1 := by
  cases hch : s.b.confCh with
  | none => have := (hs.1 hch).1; omega
  | some ch => have := (hs.2 ch hch).1; omega

theorem NilMutexInv_Step (hw : Machine) (s t : Sys) (hs : NilMutexInv s) (h : Step hw s t) :
    NilMutexInv t := by
  obtain ⟨hm, hopen⟩ := hs
  have viaTick : ∀ e n, tick hw e n s = Except.ok t → NilMutexInv t := by
    intro e n hk
    obtain ⟨_, f2, f3, _, _⟩ := tick_frame hw e n s t hk
    exact ⟨by rw [f3]; exact hm, fun ch hch => hopen ch (f2 ▸ hch)⟩
  cases h with
  | call c free h =>
    by_cases hc : c.Pattern = Wave.Stop
    · cases hch : s.b.confCh with
      | none =>
        rw [Breathe_stop_idle c s hc hch] at h
        cases h
        exact ⟨hm, hopen⟩
      | some ch =>
        rw [(Breathe_stop_ok_inv c s t ch hc hch h).1] at hm
        cases hm
    · cases hch : s.b.confCh with
      | none =>
        rw [Breathe_start c s hc hch] at h
        cases h
        refine ⟨hm, fun ch2 h2 => ?_⟩
        simp only [Option.some.injEq] at h2
        subst h2
        rfl
      | some ch =>
        have hcl := hopen ch hch
        cases hbuf : ch.buf with
        | none =>
          rw [Breathe_send_empty c s ch hc hch hcl hbuf] at h
          cases h
          refine ⟨hm, fun ch2 h2 => ?_⟩
          simp only [Option.some.injEq] at h2
          subst h2
          exact hcl
        | some x =>
          rw [Breathe_send_full c x s ch hc hch hcl hbuf] at h
          cases h
          exact ⟨hm, hopen⟩
  | iter elapsed now live h =>
    cases hch : s.b.confCh with
    | none =>
      simp only [breathe_iter, hch] at h
      exact viaTick _ _ h
    | some ch =>
      have hcl := hopen ch hch
      cases hbuf : ch.buf with
      | some cnf =>
        rw [breathe_iter_receive hw elapsed now s ch cnf hch hbuf] at h
        cases h
        refine ⟨hm, fun ch2 h2 => ?_⟩
        simp only [applyConf, Option.some.injEq] at h2
        subst h2
        exact hcl
      | none =>
        simp only [breathe_iter, hch, hbuf, hcl] at h
        exact viaTick _ _ h

theorem NilMutexInv_Reachable (hw : Machine) (pin pChan : Nat) (s : Sys)
    (hr : Reachable hw (New pin pChan) s) : NilMutexInv s := by
  induction hr with
  | init => exact ⟨rfl, fun ch hch => by cases hch⟩
  | step _ next ih => exact NilMutexInv_Step hw _ _ ih next

/-- In every state reachable from the breather `New` returns in which the handle
is set, `Breathe(Conf{Pattern: Stop})` panics in `b.Lock()`: it never returns on
a running breather. -/
theorem Breathe_stop_panics_of_reachable (hw : Machine) (pin pChan : Nat) (s : Sys)
    (hr : Reachable hw (New pin pChan) s) (ch : Chan) (hch : s.b.confCh = some ch) :
    Breathe stopConf s = Except.error Fault.nilDeref :=
  Breathe_stop_nil_mutex s ch (NilMutexInv_Reachable hw pin pChan s hr).1 hch

/-- C2 (the code departs from the claim): on the breather `New` returns,
started with `Breathe(bouncy)`, the sequence `Breathe(Conf{Pattern: Stop})`,
`Breathe(pingy)` does not end with a task holding `pingy`: the stopping call
panics in `b.Lock()`, both before and after the task has applied `bouncy`, so
the restarting call is never reached. -/
theorem C2_stop_then_restart_panics :
    ∃ s1 s2 : Sys, Breathe bouncy (New 13 0) = Except.ok s1 ∧
      breathe_iter target16 0 0 s1 = Except.ok s2 ∧ s2.tasks = 1 ∧
      s2.b.confCh = some { buf := none, closed := false } ∧
      (Breathe stopConf s1 >>= Breathe pingy) = Except.error Fault.nilDeref ∧
      (Breathe stopConf s2 >>= Breathe pingy) = Except.error Fault.nilDeref :=
  ⟨_, _, rfl, rfl, rfl, rfl, rfl, rfl⟩

/-- C7: every state reachable from the breather `New` returns, by `Breathe`
calls of a caller that is not blocked and by passes of the task loop, has at
most one live task; and in such a state with a live task, `Breathe(c)` with a
pattern other than `Stop` returns with the same number of tasks and changes
nothing but the mailbox: `c` goes into the empty buffer, or, the buffer being
full, the caller is left blocked in the send of `c`. -/
theorem C7_single_task (hw : Machine) (pin pChan : Nat) (s : Sys)
    (hr : Reachable hw (New pin pChan) s) :
    s.tasks ≤ 1 ∧
      ∀ c : Conf, c.Pattern ≠ Wave.Stop → 0 < s.tasks → s.sending = none →
        ∃ t ch, Breathe c s = Except.ok t ∧ t.tasks = s.tasks ∧ s.b.confCh = some ch ∧
          ((ch.buf = none ∧
              t = { s with b := { s.b with confCh := some { ch with buf := some c } } }) ∨
            (ch.buf ≠ none ∧ t = { s with sending := some c })) := by
  have hinv := Inv_Reachable hw (New pin pChan) s ⟨rfl, rfl, rfl⟩ hr
  have hnil := NilMutexInv_Reachable hw pin pChan s hr
  refine ⟨Inv_tasks_le_one s hinv, fun c hc live _ => ?_⟩
  cases hch : s.b.confCh with
  | none => have := (hinv.1 hch).1; omega
  | some ch =>
    have hcl := hnil.2 ch hch
    cases hbuf : ch.buf with
    | none =>
      exact ⟨_, ch, Breathe_send_empty c s ch hc hch hcl hbuf, rfl, rfl, Or.inl ⟨hbuf, rfl⟩⟩
    | some x =>
      exact ⟨_, ch, Breathe_send_full c x s ch hc hch hcl hbuf, rfl, rfl,
        Or.inr ⟨by simp [hbuf], rfl⟩⟩

theorem C7_single_task_witness :
    Reachable target16 (New 13 0)
        { New 13 0 with
          b := { (New 13 0).b with confCh := some { buf := some bouncy, closed := false } }
          tasks := 1 } ∧
      (1 ≤ 1 ∧
        ∀ c : Conf, c.Pattern ≠ Wave.Stop → 0 < 1 → (none : Option Conf) = none →
          ∃ (t : Sys) (ch : Chan),
            Breathe c
                { New 13 0 with
                  b := { (New 13 0).b with confCh := some { buf := some bouncy, closed := false } }
                  tasks := 1 } =
              Except.ok t ∧
            t.tasks = 1 ∧ some ({ buf := some bouncy, closed := false } : Chan) = some ch ∧
              ((ch.buf = none ∧
                  t =
                    { New 13 0 with
                      b := { (New 13 0).b with confCh := some { ch with buf := some c } }
                      tasks := 1 }) ∨
                (ch.buf ≠ none ∧
                  t =
                    { New 13 0 with
                      b :=
                        { (New 13 0).b with
                          confCh := some { buf := some bouncy, closed := false } }
                      tasks := 1
                      sending := some c }))) :=
  have hr : Reachable target16 (New 13 0)
      { New 13 0 with
        b := { (New 13 0).b with confCh := some { buf := some bouncy, closed := false } }
        tasks := 1 } :=
    Reachable.step Reachable.init (Step.call bouncy rfl rfl)
  ⟨hr, C7_single_task target16 13 0 _ hr⟩

/-! ## Hold, the mailbox and Stop -/

/-- C8 (counterexample): a task that is not holding receives a configuration
with pattern `Hold`; afterwards the pattern is `Hold` but `holding` is still
false. -/
theorem C8_hold_applied_not_holding :
    ∃ t : Sys,
      breathe_iter target16 0 0
          { New 13 0 with
            b := { (New 13 0).b with confCh := some { buf := some holdConf, closed := false } }
            tasks := 1 } =
        Except.ok t ∧
      t.b.pattern = Wave.Hold ∧ ¬ (t.b.holding = true) :=
  ⟨_, rfl, rfl, by decide⟩

/-- A due pass through the `default` branch in pattern `Hold` only sets
`holding`. -/
theorem tick_hold (hw : Machine) (e n : Int) (t : Sys) (hp : t.b.pattern = Wave.Hold)
    (he : e ≥ t.b.delay) :
    tick hw e n t = Except.ok { t with b := { t.b with holding := true } } := by
  simp [tick, hp, he]

/-- C8 (amended): when the task receives a configuration, the stored pattern
becomes the received one; if that pattern is not `Hold` then `holding = false`
afterwards; if it is `Hold` then `holding` keeps its value, and every following
pass through the `default` branch on which the delay has elapsed returns with
`holding = true`, no hardware call and the same step. -/
theorem C8_holding_on_apply (hw : Machine) (elapsed now : Int) (s : Sys) (ch : Chan)
    (cnf : Conf) (hch : s.b.confCh = some ch) (hbuf : ch.buf = some cnf) :
    ∃ t, breathe_iter hw elapsed now s = Except.ok t ∧ t.b.pattern = cnf.Pattern ∧
      (cnf.Pattern ≠ Wave.Hold → t.b.holding = false) ∧
      (cnf.Pattern = Wave.Hold →
        t.b.holding = s.b.holding ∧
          ∀ e n : Int, e ≥ t.b.delay →
            ∃ u, tick hw e n t = Except.ok u ∧ u.b.holding = true ∧ u.out = t.out ∧
              u.b.step = t.b.step) := by
  refine ⟨_, breathe_iter_receive hw elapsed now s ch cnf hch hbuf, rfl, ?_, ?_⟩
  · intro hne
    cases hh : s.b.holding <;> simp [applyConf, hh, hne]
  · intro hp
    refine ⟨by simp [applyConf, hp], fun e n he => ?_⟩
    exact ⟨_, tick_hold hw e n _ hp he, rfl, rfl, rfl⟩

theorem C8_holding_on_apply_witness :
    ∃ t,
      breathe_iter target16 0 0
          { New 13 0 with
            b := { (New 13 0).b with confCh := some { buf := some holdConf, closed := false } }
            tasks := 1 } =
        Except.ok t ∧
      t.b.pattern = holdConf.Pattern ∧
      (holdConf.Pattern ≠ Wave.Hold → t.b.holding = false) ∧
      (holdConf.Pattern = Wave.Hold →
        t.b.holding = false ∧
          ∀ e n : Int, e ≥ t.b.delay →
            ∃ u, tick target16 e n t = Except.ok u ∧ u.b.holding = true ∧ u.out = t.out ∧
              u.b.step = t.b.step) :=
  C8_holding_on_apply target16 0 0
    { New 13 0 with
      b := { (New 13 0).b with confCh := some { buf := some holdConf, closed := false } }
      tasks := 1 }
    { buf := some holdConf, closed := false } holdConf rfl rfl


/-- C9 (counterexample): after `Breathe(bouncy)` and `Breathe(pingy)` on a new
breather with no pass of the task in between, the caller is blocked in the send
of `pingy`, the buffer holds `bouncy`, and the task's next receive applies
`bouncy`. -/
theorem C9_second_send_blocks :
    ∃ s1 s2 s3 : Sys, Breathe bouncy (New 13 0) = Except.ok s1 ∧
      Breathe pingy s1 = Except.ok s2 ∧ s2.sending = some pingy ∧
      s2.b.confCh = some { buf := some bouncy, closed := false } ∧
      breathe_iter target16 0 0 s2 = Except.ok s3 ∧ s3.b.Conf = bouncy ∧
      ¬ (s3.b.Conf = pingy) :=
  ⟨_, _, _, rfl, rfl, rfl, rfl, rfl, rfl, by decide⟩

/-- C9 (amended): on a breather whose caller is not blocked and whose mailbox
is empty (no handle yet, or an open channel with an empty buffer),
`Breathe(c1)` with a pattern other than `Stop` returns without blocking with
`c1` in the buffer; a following `Breathe(c2)` with no pass of the task in
between leaves the caller blocked in the send of `c2` with `c1` still
buffered; the task's next pass receives `c1`, unblocks the caller and leaves
`c2` in the buffer, and the pass after that receives `c2`: both are observed,
in the order sent. -/
theorem C9_mailbox_fifo (hw : Machine) (e1 n1 e2 n2 : Int) (s : Sys) (c1 c2 : Conf)
    (h1 : c1.Pattern ≠ Wave.Stop) (h2 : c2.Pattern ≠ Wave.Stop) (free : s.sending = none)
    (hempty : s.b.confCh = none ∨ s.b.confCh = some { buf := none, closed := false }) :
    ∃ s1 s2 s3 s4 : Sys,
      Breathe c1 s = Except.ok s1 ∧ s1.sending = none ∧
        s1.b.confCh = some { buf := some c1, closed := false } ∧
      Breathe c2 s1 = Except.ok s2 ∧ s2.sending = some c2 ∧
        s2.b.confCh = some { buf := some c1, closed := false } ∧
      breathe_iter hw e1 n1 s2 = Except.ok s3 ∧ s3.b.Conf = c1 ∧ s3.sending = none ∧
        s3.b.confCh = some { buf := some c2, closed := false } ∧
      breathe_iter hw e2 n2 s3 = Except.ok s4 ∧ s4.b.Conf = c2 ∧ s4.sending = none ∧
        s4.b.confCh = some { buf := none, closed := false } := by
  have key : ∀ s1 : Sys, s1.sending = none →
      s1.b.confCh = some { buf := some c1, closed := false } →
      ∃ s2 s3 s4 : Sys,
        Breathe c2 s1 = Except.ok s2 ∧ s2.sending = some c2 ∧
          s2.b.confCh = some { buf := some c1, closed := false } ∧
        breathe_iter hw e1 n1 s2 = Except.ok s3 ∧ s3.b.Conf = c1 ∧ s3.sending = none ∧
          s3.b.confCh = some { buf := some c2, closed := false } ∧
        breathe_iter hw e2 n2 s3 = Except.ok s4 ∧ s4.b.Conf = c2 ∧ s4.sending = none ∧
          s4.b.confCh = some { buf := none, closed := false } := by
    intro s1 hfree hch
    refine ⟨_, _, _, Breathe_send_full c2 c1 s1 _ h2 hch rfl rfl, rfl, hch,
      breathe_iter_receive hw e1 n1 _ _ c1 hch rfl, rfl, rfl, rfl,
      breathe_iter_receive hw e2 n2 _ _ c2 rfl rfl, rfl, rfl, rfl⟩
  rcases hempty with hch | hch
  · obtain ⟨s2, s3, s4, k⟩ :=
      key
        { s with
          b := { s.b with confCh := some { buf := some c1, closed := false } }
          tasks := s.tasks + 1 }
        free rfl
    exact ⟨_, s2, s3, s4, Breathe_start c1 s h1 hch, free, rfl, k⟩
  · obtain ⟨s2, s3, s4, k⟩ :=
      key { s with b := { s.b with confCh := some { buf := some c1, closed := false } } }
        free rfl
    exact ⟨_, s2, s3, s4, Breathe_send_empty c1 s _ h1 hch rfl rfl, free, rfl, k⟩

theorem C9_mailbox_fifo_witness :
    bouncy.Pattern ≠ Wave.Stop ∧ pingy.Pattern ≠ Wave.Stop ∧ (New 13 0).sending = none ∧
      ∃ s1 s2 s3 s4 : Sys,
        Breathe bouncy (New 13 0) = Except.ok s1 ∧ s1.sending = none ∧
          s1.b.confCh = some { buf := some bouncy, closed := false } ∧
        Breathe pingy s1 = Except.ok s2 ∧ s2.sending = some pingy ∧
          s2.b.confCh = some { buf := some bouncy, closed := false } ∧
        breathe_iter target16 0 0 s2 = Except.ok s3 ∧ s3.b.Conf = bouncy ∧ s3.sending = none ∧
          s3.b.confCh = some { buf := some pingy, closed := false } ∧
        breathe_iter target16 0 0 s3 = Except.ok s4 ∧ s4.b.Conf = pingy ∧ s4.sending = none ∧
          s4.b.confCh = some { buf := none, closed := false } :=
  ⟨by decide, by decide, rfl,
    C9_mailbox_fifo target16 0 0 0 0 (New 13 0) bouncy pingy (by decide) (by decide) rfl
      (Or.inl rfl)⟩


/-! ## The step counter in closed form -/

theorem succ_mod_two_mul (t m : Nat) (ht : 1 ≤ t) :
    (m + 1) % (2 * t) = if m % (2 * t) + 1 = 2 * t then 0 else m % (2 * t) + 1 := by
  have hlt : m % (2 * t) < 2 * t := Nat.mod_lt _ (by omega)
  have h1 : 1 % (2 * t) = 1 := Nat.mod_eq_of_lt (by omega)
  rw [Nat.add_mod, h1]
  split
  · next h => rw [h, Nat.mod_self]
  · next h => exact Nat.mod_eq_of_lt (by omega)

/-- After `n` calls from step `0` the counter is `((n + Top) mod 2*Top) - Top`,
when `1 ≤ Top` and `Top` fits the positive range of `int`. -/
theorem stepAfter_closed (hw : Machine) (hbits : 0 < hw.intBits) (h1 : 1 ≤ hw.top)
    (htop : (hw.top : Int) < 2 ^ (hw.intBits - 1)) (n : Nat) :
    stepAfter hw n = (((n + hw.top) % (2 * hw.top) : Nat) : Int) - hw.top := by
  induction n with
  | zero =>
    have : (0 + hw.top) % (2 * hw.top) = hw.top := by
      rw [Nat.zero_add]; exact Nat.mod_eq_of_lt (by omega)
    rw [this]
    simp [stepAfter, New]
  | succ k ih =>
    unfold stepAfter at ih ⊢
    rw [Function.iterate_succ_apply']
    have hm : (k + hw.top) % (2 * hw.top) < 2 * hw.top := Nat.mod_lt _ (by omega)
    have hs := succ_mod_two_mul hw.top (k + hw.top) h1
    have hk : k + 1 + hw.top = k + hw.top + 1 := by omega
    rw [hk, hs]
    generalize (k + hw.top) % (2 * hw.top) = m at ih hm
    generalize ((incrementStep hw)^[k] (New 0 0).b) = b at ih
    have e1 : wrapInt hw.intBits (b.step + 1) = b.step + 1 :=
      wrapInt_of_range hbits (by omega) (by omega)
    have e2 : wrapInt hw.intBits (hw.top : Int) = hw.top :=
      wrapInt_of_range hbits (by omega) htop
    have e3 : wrapInt hw.intBits (-(hw.top : Int)) = -hw.top :=
      wrapInt_of_range hbits (by omega) (by omega)
    simp only [incrementStep, e1, e2]
    by_cases hc : m + 1 = 2 * hw.top
    · have : b.step + 1 = hw.top := by omega
      simp only [this, if_true, hc, e3]
      simp
    · have : b.step + 1 ≠ hw.top := by omega
      simp only [this, if_false, hc]
      push_cast
      omega

theorem incrementStep_step_congr (hw : Machine) (b c : breather) (h : b.step = c.step) :
    (incrementStep hw b).step = (incrementStep hw c).step := by
  unfold incrementStep
  dsimp only
  rw [h]
  split <;> rfl

/-- The step counter after `n` calls depends on the starting step only. -/
theorem iterate_step_eq_stepAfter (hw : Machine) (b : breather) (hb : b.step = 0) (n : Nat) :
    ((incrementStep hw)^[n] b).step = stepAfter hw n := by
  unfold stepAfter
  induction n with
  | zero => simpa [New] using hb
  | succ k ih =>
    rw [Function.iterate_succ_apply', Function.iterate_succ_apply']
    exact incrementStep_step_congr hw _ _ ih

theorem top_fits_int (w top : Nat) (hbits : 32 ≤ w) (h2 : top < 2 ^ 31) :
    (top : Int) < 2 ^ (w - 1) := by
  have h31 : (2 : Int) ^ 31 ≤ 2 ^ (w - 1) := pow_le_pow_right₀ (by norm_num) (by omega)
  have : (top : Int) < 2 ^ 31 := by exact_mod_cast h2
  omega

/-- C17: for a target whose `int` has at least 32 bits and whose PWM top value
satisfies `1 ≤ Top < 2^31`, and for every breather at step `0` (whatever its
`smoothing`), the step after any number of `incrementStep` calls lies in
`[-Top, Top-1]`, the sequence repeats after `2*Top` calls, the step is `0`
again after `2*Top` calls and is not `0` after `n` calls for `0 < n < 2*Top`. -/
theorem C17_step_ping_pong (hw : Machine) (b : breather) (hbits : 32 ≤ hw.intBits)
    (h1 : 1 ≤ hw.top) (h2 : hw.top < 2 ^ 31) (hb : b.step = 0) :
    (∀ n, -(hw.top : Int) ≤ ((incrementStep hw)^[n] b).step ∧
        ((incrementStep hw)^[n] b).step ≤ (hw.top : Int) - 1) ∧
      (∀ n, ((incrementStep hw)^[n + 2 * hw.top] b).step = ((incrementStep hw)^[n] b).step) ∧
      ((incrementStep hw)^[2 * hw.top] b).step = 0 ∧
      ∀ n, 0 < n → n < 2 * hw.top → ((incrementStep hw)^[n] b).step ≠ 0 := by
  have hfit := top_fits_int hw.intBits hw.top hbits h2
  have cl : ∀ n, ((incrementStep hw)^[n] b).step =
      (((n + hw.top) % (2 * hw.top) : Nat) : Int) - hw.top := fun n => by
    rw [iterate_step_eq_stepAfter hw b hb n]
    exact stepAfter_closed hw (by omega) h1 hfit n
  refine ⟨fun n => ?_, fun n => ?_, ?_, fun n hn0 hn => ?_⟩
  · rw [cl n]
    have hm : (n + hw.top) % (2 * hw.top) < 2 * hw.top := Nat.mod_lt _ (by omega)
    omega
  · rw [cl, cl]
    have : n + 2 * hw.top + hw.top = n + hw.top + 2 * hw.top := by omega
    rw [this, Nat.add_mod_right]
  · rw [cl]
    have : 2 * hw.top + hw.top = hw.top + 2 * hw.top := by omega
    rw [this, Nat.add_mod_right, Nat.mod_eq_of_lt (by omega)]
    omega
  · rw [cl]
    by_cases hlt : n < hw.top
    · rw [Nat.mod_eq_of_lt (by omega)]
      push_cast
      omega
    · have : n + hw.top = (n - hw.top) + 2 * hw.top := by omega
      rw [this, Nat.add_mod_right, Nat.mod_eq_of_lt (by omega)]
      omega

theorem C17_step_ping_pong_witness :
    32 ≤ target16.intBits ∧ 1 ≤ target16.top ∧ target16.top < 2 ^ 31 ∧
      (applyConf bouncy (New 13 0).b).step = 0 ∧
      ((∀ n, -(target16.top : Int) ≤
            ((incrementStep target16)^[n] (applyConf bouncy (New 13 0).b)).step ∧
          ((incrementStep target16)^[n] (applyConf bouncy (New 13 0).b)).step ≤
            (target16.top : Int) - 1) ∧
        (∀ n, ((incrementStep target16)^[n + 2 * target16.top]
              (applyConf bouncy (New 13 0).b)).step =
            ((incrementStep target16)^[n] (applyConf bouncy (New 13 0).b)).step) ∧
        ((incrementStep target16)^[2 * target16.top] (applyConf bouncy (New 13 0).b)).step = 0 ∧
        ∀ n, 0 < n → n < 2 * target16.top →
          ((incrementStep target16)^[n] (applyConf bouncy (New 13 0).b)).step ≠ 0) :=
  ⟨by decide, by decide, by decide, rfl,
    C17_step_ping_pong target16 (applyConf bouncy (New 13 0).b) (by decide) (by decide)
      (by decide) rfl⟩


/-! ## The triangular duty in closed form -/

/-- For an `int` of at least 32 bits, wrapping to `int` does not change the
conversion to `uint32`. -/
theorem toUint32_wrapInt (w : Nat) (x : Int) (hbits : 32 ≤ w) :
    toUint32 (wrapInt w x) = toUint32 x := by
  unfold toUint32 wrapInt
  have hw : (2 : Int) ^ w = 2 ^ 32 * 2 ^ (w - 32) := by
    rw [← pow_add]; congr 1; omega
  have key : ((x + 2 ^ (w - 1)) % 2 ^ w - 2 ^ (w - 1)) % 2 ^ 32 = x % 2 ^ 32 := by
    rw [Int.emod_def (x + 2 ^ (w - 1)) (2 ^ w), hw]
    have : x + 2 ^ (w - 1) - 2 ^ 32 * 2 ^ (w - 32) * ((x + 2 ^ (w - 1)) / (2 ^ 32 * 2 ^ (w - 32))) -
        2 ^ (w - 1) =
        x + 2 ^ 32 * (-(2 ^ (w - 32) * ((x + 2 ^ (w - 1)) / (2 ^ 32 * 2 ^ (w - 32))))) := by
      ring
    rw [this, Int.add_mul_emod_self_left]
  rw [key]

/-- The function `abs` returns the absolute value whenever that fits `uint32`. -/
theorem abs_eq_natAbs (w : Nat) (s : Int) (hbits : 32 ≤ w) (hs : s.natAbs < 2 ^ 32) :
    abs w s = s.natAbs := by
  unfold abs
  split
  · rw [toUint32_wrapInt w _ hbits]
    unfold toUint32
    omega
  · unfold toUint32
    omega

/-- The two values of the triangular duty expression. -/
theorem triangularDuty_eq (w top : Nat) (s : Int) (hbits : 32 ≤ w) (h0 : 0 < top)
    (h1 : top < 2 ^ 32) (hs : s.natAbs ≤ top) :
    triangularDuty w top s = if s.natAbs < top then (2 * top) % 2 ^ 32 else 0 := by
  unfold triangularDuty
  rw [abs_eq_natAbs w s hbits (by omega)]
  split
  · next h =>
    rw [Nat.div_eq_of_lt h]
    simp [u32, Nat.mul_comm]
  · next h =>
    have : s.natAbs = top := by omega
    rw [this, Nat.div_self h0]
    simp [u32]


/-- C18: for a target whose `int` has at least 32 bits and whose PWM top value
satisfies `0 < Top < 2^32`, and every step with `|step| ≤ Top`, the `uint32`
expression of `stepTriangular` is `(2*Top) mod 2^32` when `|step| < Top` and
`0` when `|step| = Top`; a call of `stepTriangular` on a breather that is not
holding writes exactly this value, which is a function of the step and the top
value alone (`smoothing` does not enter). -/
theorem C18_triangular_two_values (hw : Machine) (now : Int) (st : Sys)
    (hbits : 32 ≤ hw.intBits) (h0 : 0 < hw.top) (h1 : hw.top < 2 ^ 32)
    (hs : st.b.step.natAbs ≤ hw.top) (hh : st.b.holding = false) :
    triangularDuty hw.intBits hw.top st.b.step =
        (if st.b.step.natAbs < hw.top then (2 * hw.top) % 2 ^ 32 else 0) ∧
      ∃ t, stepTriangular hw now st = Except.ok t ∧
        t.out =
          st.out ++
            [Out.pwmSet st.b.pChan
              (if st.b.step.natAbs < hw.top then (2 * hw.top) % 2 ^ 32 else 0)] := by
  have e := triangularDuty_eq hw.intBits hw.top st.b.step hbits h0 h1 hs
  refine ⟨e, ?_⟩
  have hne : hw.top ≠ 0 := by omega
  unfold stepTriangular
  rw [hh]
  simp only [Bool.false_eq_true, if_false, if_neg hne]
  exact ⟨_, rfl, by rw [e]⟩

theorem C18_triangular_two_values_witness :
    32 ≤ target16.intBits ∧ 0 < target16.top ∧ target16.top < 2 ^ 32 ∧
      (New 13 0).b.step.natAbs ≤ target16.top ∧ (New 13 0).b.holding = false ∧
      (triangularDuty target16.intBits target16.top (New 13 0).b.step =
          (if (New 13 0).b.step.natAbs < target16.top then (2 * target16.top) % 2 ^ 32 else 0) ∧
        ∃ t, stepTriangular target16 5 (New 13 0) = Except.ok t ∧
          t.out =
            (New 13 0).out ++
              [Out.pwmSet (New 13 0).b.pChan
                (if (New 13 0).b.step.natAbs < target16.top then (2 * target16.top) % 2 ^ 32
                  else 0)]) :=
  ⟨by decide, by decide, by decide, by decide, rfl,
    C18_triangular_two_values target16 5 (New 13 0) (by decide) (by decide) (by decide)
      (by decide) rfl⟩

/-! ## Circular and triangular values at given steps -/

/-- Over the forward half of the sweep the radicand of `stepCircular` lies in
`[0, 1]`. -/
theorem circularRadicand_forward (r : Nat) (s : Int) (hr : 0 < r) (h0 : 0 ≤ s)
    (h1 : s ≤ r) : 0 ≤ circularRadicand s r ∧ circularRadicand s r ≤ 1 := by
  unfold circularRadicand
  have hrq : (0 : ℚ) < r := by exact_mod_cast hr
  have hs0 : (0 : ℚ) ≤ s := by exact_mod_cast h0
  have hs1 : (s : ℚ) ≤ r := by exact_mod_cast h1
  have hq0 : (0 : ℚ) ≤ (s : ℚ) / r := div_nonneg hs0 hrq.le
  have hq1 : (s : ℚ) / r ≤ 1 := (div_le_one hrq).mpr hs1
  have habs : |2 * ((s : ℚ) / r) - 1| ≤ 1 := abs_le.mpr ⟨by linarith, by linarith⟩
  have hnn : 0 ≤ |2 * ((s : ℚ) / r) - 1| := abs_nonneg _
  constructor
  · nlinarith
  · nlinarith

/-- C11 (the code departs from the claim): with `Smoothing = 750` the step
`-750` lies in `[-750, 750]`, yet the radicand of `stepCircular` there is `-8`
(and it is negative already at step `-1`): `math.Sqrt` is taken of a negative
number. On a target with top value `65535` the step `-750` is
reached after `130320` calls of `incrementStep`. -/
theorem C11_circular_radicand_negative :
    circularRadicand (-750) 750 = -8 ∧ ¬ (0 ≤ circularRadicand (-750) 750) ∧
      circularRadicand (-1) 750 < 0 ∧ stepAfter target16 130320 = -750 := by
  refine ⟨?_, ?_, ?_, ?_⟩
  · norm_num [circularRadicand, abs_of_neg]
  · norm_num [circularRadicand, abs_of_neg]
  · norm_num [circularRadicand, abs_of_neg]
  · rw [stepAfter_closed target16 (by decide) (by decide) (by decide)]
    decide

/-- C12 (the code departs from the claim): with `Smoothing = 750` applied and a
PWM top value of `65535`, `stepTriangular` writes `131070` at step `0`, at step
`375` and at step `750`, where the linear ramp `Top * (1 - |s|/r)` is `65535`,
about `32767` and `0`. -/
theorem C12_triangular_not_a_ramp :
    (applyConf triConf (New 13 0).b).smoothing = 750 ∧
      triangularDuty 32 65535 0 = 131070 ∧ triangularDuty 32 65535 375 = 131070 ∧
      triangularDuty 32 65535 750 = 131070 ∧
      ∃ t : Sys,
        stepTriangular target16 5
            { New 13 0 with b := { applyConf triConf (New 13 0).b with step := 750 } } =
          Except.ok t ∧
        t.out = (New 13 0).out ++ [Out.pwmSet 0 131070] ∧ ¬ (131070 = 0) :=
  ⟨rfl, by decide, by decide, by decide, _, rfl, rfl, by decide⟩

/-! ## Stop on an idle breather -/

/-- C15: on every breather whose handle is nil, `Breathe` with a configuration
of pattern `Stop` returns the state unchanged: no panic, no blocked caller, no
task started and no field modified. This covers the breather `New` returns and
every state the cleanup path of the task returns. -/
theorem C15_stop_idle_noop (c : Conf) (s : Sys) (hc : c.Pattern = Wave.Stop)
    (hch : s.b.confCh = none) :
    Breathe c s = Except.ok s ∧
      (∀ pin pChan, Breathe c (New pin pChan) = Except.ok (New pin pChan)) ∧
      ∀ u t, cleanup u = Except.ok t → Breathe c t = Except.ok t := by
  refine ⟨Breathe_stop_idle c s hc hch, fun pin pChan => Breathe_stop_idle c _ hc rfl,
    fun u t h => Breathe_stop_idle c t hc (cleanup_ok_inv u t h).2.1⟩

theorem C15_stop_idle_noop_witness :
    stopConf.Pattern = Wave.Stop ∧ (New 13 0).b.confCh = none ∧
      (Breathe stopConf (New 13 0) = Except.ok (New 13 0) ∧
        (∀ pin pChan, Breathe stopConf (New pin pChan) = Except.ok (New pin pChan)) ∧
        ∀ u t, cleanup u = Except.ok t → Breathe stopConf t = Except.ok t) :=
  ⟨rfl, rfl, C15_stop_idle_noop stopConf (New 13 0) rfl rfl⟩

/-! ## Stop never stored, holding only in Hold -/

/-- What `Breathe` leaves alone: the task-owned fields and the hardware trace. -/
theorem Breathe_frame (c : Conf) (s t : Sys) (h : Breathe c s = Except.ok t) :
    t.b.holding = s.b.holding ∧ t.b.pattern = s.b.pattern ∧ t.b.step = s.b.step ∧
      t.out = s.out := by
  by_cases hc : c.Pattern = Wave.Stop
  · cases hch : s.b.confCh with
    | none =>
      rw [Breathe_stop_idle c s hc hch] at h
      cases h
      exact ⟨rfl, rfl, rfl, rfl⟩
    | some ch =>
      obtain ⟨hm, hopen⟩ := Breathe_stop_ok_inv c s t ch hc hch h
      rw [Breathe_stop_running c s ch hc hch hm hopen] at h
      cases h
      exact ⟨rfl, rfl, rfl, rfl⟩
  · cases hch : s.b.confCh with
    | none =>
      rw [Breathe_start c s hc hch] at h
      cases h
      exact ⟨rfl, rfl, rfl, rfl⟩
    | some ch =>
      cases hcl : ch.closed with
      | true =>
        rw [Breathe_send_closed c s ch hc hch hcl] at h
        cases h
      | false =>
        cases hbuf : ch.buf with
        | none =>
          rw [Breathe_send_empty c s ch hc hch hcl hbuf] at h
          cases h
          exact ⟨rfl, rfl, rfl, rfl⟩
        | some x =>
          rw [Breathe_send_full c x s ch hc hch hcl hbuf] at h
          cases h
          exact ⟨rfl, rfl, rfl, rfl⟩

theorem NoStop_Breathe (c : Conf) (s t : Sys) (hs : NoStop s)
    (h : Breathe c s = Except.ok t) : NoStop t := by
  obtain ⟨hp, hb, hsd⟩ := hs
  by_cases hc : c.Pattern = Wave.Stop
  · cases hch : s.b.confCh with
    | none =>
      rw [Breathe_stop_idle c s hc hch] at h
      cases h
      exact ⟨hp, hb, hsd⟩
    | some ch =>
      obtain ⟨hm, hopen⟩ := Breathe_stop_ok_inv c s t ch hc hch h
      rw [Breathe_stop_running c s ch hc hch hm hopen] at h
      cases h
      refine ⟨hp, fun ch2 c2 h2 hb2 => ?_, hsd⟩
      simp only [Option.some.injEq] at h2
      subst h2
      exact hb ch c2 hch hb2
  · cases hch : s.b.confCh with
    | none =>
      rw [Breathe_start c s hc hch] at h
      cases h
      refine ⟨hp, fun ch2 c2 h2 hb2 => ?_, hsd⟩
      simp only [Option.some.injEq] at h2
      subst h2
      simp only [Option.some.injEq] at hb2
      subst hb2
      exact hc
    | some ch =>
      cases hcl : ch.closed with
      | true =>
        rw [Breathe_send_closed c s ch hc hch hcl] at h
        cases h
      | false =>
        cases hbuf : ch.buf with
        | none =>
          rw [Breathe_send_empty c s ch hc hch hcl hbuf] at h
          cases h
          refine ⟨hp, fun ch2 c2 h2 hb2 => ?_, hsd⟩
          simp only [Option.some.injEq] at h2
          subst h2
          simp only [Option.some.injEq] at hb2
          subst hb2
          exact hc
        | some x =>
          rw [Breathe_send_full c x s ch hc hch hcl hbuf] at h
          cases h
          refine ⟨hp, hb, fun c2 h2 => ?_⟩
          simp only [Option.some.injEq] at h2
          subst h2
          exact hc

theorem NoStop_breathe_iter (hw : Machine) (elapsed now : Int) (s t : Sys) (hs : NoStop s)
    (h : breathe_iter hw elapsed now s = Except.ok t) : NoStop t := by
  obtain ⟨hp, hb, hsd⟩ := hs
  have viaTick : tick hw elapsed now s = Except.ok t → NoStop t := by
    intro hk
    obtain ⟨f1, f2, _, _, f5⟩ := tick_frame hw elapsed now s t hk
    have fp : t.b.pattern = s.b.pattern := congrArg Conf.Pattern f1
    exact ⟨by rw [fp]; exact hp, fun ch c hch => hb ch c (f2 ▸ hch),
      fun c hc => hsd c (f5 ▸ hc)⟩
  cases hch : s.b.confCh with
  | none =>
    simp only [breathe_iter, hch] at h
    exact viaTick h
  | some ch =>
    cases hbuf : ch.buf with
    | some cnf =>
      rw [breathe_iter_receive hw elapsed now s ch cnf hch hbuf] at h
      cases h
      refine ⟨hb ch cnf hch hbuf, fun ch2 c2 h2 hb2 => ?_, fun c2 h2 => by cases h2⟩
      simp only [applyConf, Option.some.injEq] at h2
      subst h2
      exact hsd c2 hb2
    | none =>
      simp only [breathe_iter, hch, hbuf] at h
      cases hcl : ch.closed with
      | true =>
        simp only [hcl, if_true] at h
        obtain ⟨_, c2, _, c4, _, _, _, c8, _⟩ := cleanup_ok_inv s t h
        have fp : t.b.pattern = s.b.pattern := congrArg Conf.Pattern c8
        refine ⟨by rw [fp]; exact hp, fun ch2 cc h2 => ?_, fun c hc => hsd c (c4 ▸ hc)⟩
        rw [c2] at h2
        cases h2
      | false =>
        simp only [hcl] at h
        exact viaTick h

/-- Every state reached from a state that carries no `Stop` carries none. -/
theorem NoStop_Reachable (hw : Machine) (s₀ s : Sys) (h0 : NoStop s₀)
    (hr : Reachable hw s₀ s) : NoStop s := by
  induction hr with
  | init => exact h0
  | step _ next ih =>
    cases next with
    | call c free h => exact NoStop_Breathe c _ _ ih h
    | iter elapsed now live h => exact NoStop_breathe_iter hw elapsed now _ _ ih h

/-- C16: in every state reachable from the breather `New` returns, by `Breathe`
calls and passes of the task loop, the stored pattern is not `Stop`, so
`Conf()` never reports `Stop`; neither the buffered configuration nor that of a
blocked sender has pattern `Stop`, because `Breathe` sends only in its
non-`Stop` branch. -/
theorem C16_stop_never_stored (hw : Machine) (pin pChan : Nat) (s : Sys)
    (hr : Reachable hw (New pin pChan) s) :
    s.b.pattern ≠ Wave.Stop ∧ s.b.Conf.Pattern ≠ Wave.Stop ∧
      (∀ ch c, s.b.confCh = some ch → ch.buf = some c → c.Pattern ≠ Wave.Stop) ∧
      ∀ c, s.sending = some c → c.Pattern ≠ Wave.Stop := by
  have h0 : NoStop (New pin pChan) := by
    refine ⟨?_, ?_, ?_⟩
    · show Wave.Triangular ≠ Wave.Stop
      decide
    · intro ch c hch
      cases hch
    · intro c hc
      cases hc
  obtain ⟨h1, h2, h3⟩ := NoStop_Reachable hw (New pin pChan) s h0 hr
  exact ⟨h1, h1, h2, h3⟩


theorem C16_stop_never_stored_witness :
    Reachable target16 (New 13 0)
        { New 13 0 with
          b := { (New 13 0).b with confCh := some { buf := some bouncy, closed := false } }
          tasks := 1 } ∧
      (Wave.Triangular ≠ Wave.Stop ∧ (New 13 0).b.Conf.Pattern ≠ Wave.Stop ∧
        (∀ ch c, some ({ buf := some bouncy, closed := false } : Chan) = some ch →
            ch.buf = some c → c.Pattern ≠ Wave.Stop) ∧
          ∀ c, (none : Option Conf) = some c → c.Pattern ≠ Wave.Stop) :=
  have hr : Reachable target16 (New 13 0)
      { New 13 0 with
        b := { (New 13 0).b with confCh := some { buf := some bouncy, closed := false } }
        tasks := 1 } :=
    Reachable.step Reachable.init (Step.call bouncy rfl rfl)
  ⟨hr, C16_stop_never_stored target16 13 0 _ hr⟩

theorem HoldInv_applyConf (cnf : Conf) (b : breather) :
    (applyConf cnf b).holding = true → (applyConf cnf b).pattern = Wave.Hold := by
  intro h
  by_cases hp : cnf.Pattern = Wave.Hold
  · exact hp
  · cases hh : b.holding <;> simp [applyConf, hh, hp] at h

theorem HoldInv_tick (hw : Machine) (elapsed now : Int) (s t : Sys) (hs : HoldInv s)
    (h : tick hw elapsed now s = Except.ok t) : HoldInv t := by
  have stepCase : ∀ out, HoldInv
      { s with b := incrementStep hw { s.b with lastStep := now }, out := out } := by
    intro out hh
    obtain ⟨f1, _, _, f4⟩ := incrementStep_frame hw { s.b with lastStep := now }
    have fp : (incrementStep hw { s.b with lastStep := now }).pattern = s.b.pattern :=
      congrArg Conf.Pattern f1
    show (incrementStep hw { s.b with lastStep := now }).pattern = Wave.Hold
    rw [fp]
    exact hs (by rw [← hh]; exact f4.symm)
  unfold tick at h
  split at h
  · split at h
    · unfold stepTriangular at h
      split at h
      · cases h; exact hs
      · split at h
        · cases h
        · cases h; exact stepCase _
    · unfold stepCircular at h
      split at h
      · cases h; exact hs
      · cases h; exact stepCase _
    · unfold stepGaussian at h
      split at h
      · cases h; exact hs
      · cases h; exact stepCase _
    · next hp =>
      cases h
      intro _
      exact hp
    · cases h; exact hs
  · cases h; exact hs

theorem HoldInv_Step (hw : Machine) (s t : Sys) (hs : HoldInv s) (h : Step hw s t) :
    HoldInv t := by
  cases h with
  | call c free h =>
    obtain ⟨f1, f2, _, _⟩ := Breathe_frame c s t h
    intro hh
    rw [f2]
    exact hs (f1 ▸ hh)
  | iter elapsed now live h =>
    cases hch : s.b.confCh with
    | none =>
      simp only [breathe_iter, hch] at h
      exact HoldInv_tick hw elapsed now s t hs h
    | some ch =>
      cases hbuf : ch.buf with
      | some cnf =>
        rw [breathe_iter_receive hw elapsed now s ch cnf hch hbuf] at h
        cases h
        exact HoldInv_applyConf cnf _
      | none =>
        simp only [breathe_iter, hch, hbuf] at h
        cases hcl : ch.closed with
        | true =>
          simp only [hcl, if_true] at h
          obtain ⟨_, _, _, _, _, _, c7, c8, _⟩ := cleanup_ok_inv s t h
          have fp : t.b.pattern = s.b.pattern := congrArg Conf.Pattern c8
          intro hh
          rw [fp]
          exact hs (c7 ▸ hh)
        | false =>
          simp only [hcl] at h
          exact HoldInv_tick hw elapsed now s t hs h

/-- Every state reached from a state where `holding` implies pattern `Hold`
has that property. -/
theorem HoldInv_Reachable (hw : Machine) (s₀ s : Sys) (h0 : HoldInv s₀)
    (hr : Reachable hw s₀ s) : HoldInv s := by
  induction hr with
  | init => exact h0
  | step _ next ih => exact HoldInv_Step hw _ _ ih next

/-- C19 (counterexample): on a target whose PWM top value is `0`, the state
reached from a new breather by `Breathe(triConf)` and one pass of the task has
pattern `Triangular` and is not holding, yet the due pass that calls
`stepTriangular` writes no duty value: it panics in the integer division by
`Top`. -/
theorem C19_triangular_call_panics_at_top_zero :
    Reachable targetZero (New 13 0)
        { New 13 0 with
          b :=
            { applyConf triConf (New 13 0).b with
              confCh := some { buf := none, closed := false } }
          tasks := 1 } ∧
      tick targetZero 1000000 7
          { New 13 0 with
            b :=
              { applyConf triConf (New 13 0).b with
                confCh := some { buf := none, closed := false } }
            tasks := 1 } =
        Except.error Fault.divideByZero ∧
      breathe_iter targetZero 1000000 7
          { New 13 0 with
            b :=
              { applyConf triConf (New 13 0).b with
                confCh := some { buf := none, closed := false } }
            tasks := 1 } =
        Except.error Fault.divideByZero :=
  ⟨Reachable.step (Reachable.step Reachable.init (Step.call triConf rfl rfl))
      (Step.iter 0 0 (by decide) rfl),
    rfl, rfl⟩

/-- C19 (amended): in every state reachable from the breather `New` returns,
`holding = true` implies `pattern = Hold`; hence in such a state with pattern
`Triangular`, `Circular` or `Gaussian` the flag `holding` is false, and a due
pass through the `default` branch writes the duty value of that pattern and
replaces the breather by `incrementStep` of it (with `lastStep` updated), for
`Circular` and `Gaussian` on every target and for `Triangular` on targets with
a positive PWM top value. -/
theorem C19_holding_only_in_hold (hw : Machine) (pin pChan : Nat) (s : Sys)
    (hr : Reachable hw (New pin pChan) s) :
    (s.b.holding = true → s.b.pattern = Wave.Hold) ∧
      ((s.b.pattern = Wave.Triangular ∨ s.b.pattern = Wave.Circular ∨
          s.b.pattern = Wave.Gaussian) → s.b.holding = false) ∧
      ∀ e now : Int, e ≥ s.b.delay →
        (s.b.pattern = Wave.Circular →
          tick hw e now s =
            Except.ok
              { s with
                b := incrementStep hw { s.b with lastStep := now }
                out :=
                  s.out ++
                    [Out.pwmSet s.b.pChan (hw.circularDuty hw.top s.b.step s.b.smoothing)] }) ∧
        (s.b.pattern = Wave.Gaussian →
          tick hw e now s =
            Except.ok
              { s with
                b := incrementStep hw { s.b with lastStep := now }
                out :=
                  s.out ++
                    [Out.pwmSet s.b.pChan
                      (hw.gaussianDuty hw.top s.b.step s.b.smoothing s.b.beta s.b.gamma)] }) ∧
        (s.b.pattern = Wave.Triangular → 0 < hw.top →
          tick hw e now s =
            Except.ok
              { s with
                b := incrementStep hw { s.b with lastStep := now }
                out :=
                  s.out ++
                    [Out.pwmSet s.b.pChan (triangularDuty hw.intBits hw.top s.b.step)] }) := by
  have hinv : HoldInv s :=
    HoldInv_Reachable hw (New pin pChan) s (fun h => by cases h) hr
  have guard : (s.b.pattern = Wave.Triangular ∨ s.b.pattern = Wave.Circular ∨
      s.b.pattern = Wave.Gaussian) → s.b.holding = false := by
    intro hp
    cases hh : s.b.holding with
    | false => rfl
    | true =>
      have := hinv hh
      rw [this] at hp
      rcases hp with hp | hp | hp <;> cases hp
  refine ⟨hinv, guard, fun e now he => ⟨fun hp => ?_, fun hp => ?_, fun hp htop => ?_⟩⟩
  · have hh := guard (Or.inr (Or.inl hp))
    simp [tick, he, hp, stepCircular, hh]
  · have hh := guard (Or.inr (Or.inr hp))
    simp [tick, he, hp, stepGaussian, hh]
  · have hh := guard (Or.inl hp)
    have hne : hw.top ≠ 0 := by omega
    simp [tick, he, hp, stepTriangular, hh, hne]


theorem C19_holding_only_in_hold_witness :
    Reachable target16 (New 13 0) (New 13 0) ∧
      (((New 13 0).b.holding = true → (New 13 0).b.pattern = Wave.Hold) ∧
        (((New 13 0).b.pattern = Wave.Triangular ∨ (New 13 0).b.pattern = Wave.Circular ∨
            (New 13 0).b.pattern = Wave.Gaussian) → (New 13 0).b.holding = false) ∧
        ∀ e now : Int, e ≥ (New 13 0).b.delay →
          ((New 13 0).b.pattern = Wave.Circular →
            tick target16 e now (New 13 0) =
              Except.ok
                { New 13 0 with
                  b := incrementStep target16 { (New 13 0).b with lastStep := now }
                  out :=
                    (New 13 0).out ++
                      [Out.pwmSet (New 13 0).b.pChan
                        (target16.circularDuty target16.top (New 13 0).b.step
                          (New 13 0).b.smoothing)] }) ∧
          ((New 13 0).b.pattern = Wave.Gaussian →
            tick target16 e now (New 13 0) =
              Except.ok
                { New 13 0 with
                  b := incrementStep target16 { (New 13 0).b with lastStep := now }
                  out :=
                    (New 13 0).out ++
                      [Out.pwmSet (New 13 0).b.pChan
                        (target16.gaussianDuty target16.top (New 13 0).b.step
                          (New 13 0).b.smoothing (New 13 0).b.beta (New 13 0).b.gamma)] }) ∧
          ((New 13 0).b.pattern = Wave.Triangular → 0 < target16.top →
            tick target16 e now (New 13 0) =
              Except.ok
                { New 13 0 with
                  b := incrementStep target16 { (New 13 0).b with lastStep := now }
                  out :=
                    (New 13 0).out ++
                      [Out.pwmSet (New 13 0).b.pChan
                        (triangularDuty target16.intBits target16.top (New 13 0).b.step)] })) :=
  ⟨Reachable.init, C19_holding_only_in_hold target16 13 0 (New 13 0) Reachable.init⟩

/-! ## Circular and Gaussian duty in real arithmetic -/

theorem stepCircular_real (top w : Nat) (now : Int) (st : Sys) (hh : st.b.holding = false) :
    stepCircular (realMachine top w) now st =
      Except.ok
        { st with
          b := incrementStep (realMachine top w) { st.b with lastStep := now }
          out :=
            st.out ++ [Out.pwmSet st.b.pChan (circularDutyReal top st.b.step st.b.smoothing)] } := by
  simp [stepCircular, hh, realMachine]

theorem stepGaussian_real (top w : Nat) (now : Int) (st : Sys) (hh : st.b.holding = false) :
    stepGaussian (realMachine top w) now st =
      Except.ok
        { st with
          b := incrementStep (realMachine top w) { st.b with lastStep := now }
          out :=
            st.out ++
              [Out.pwmSet st.b.pChan
                (gaussianDutyReal top st.b.step st.b.smoothing st.b.beta st.b.gamma)] } := by
  simp [stepGaussian, hh, realMachine]

theorem circularDutyReal_start (top r : Nat) : circularDutyReal top 0 r = 0 := by
  have h : circularRadicand 0 r = 0 := by simp [circularRadicand]
  simp [circularDutyReal, h]

theorem circularDutyReal_mid (top r : Nat) (hr : 0 < r) (heven : r % 2 = 0) :
    circularDutyReal top ((r / 2 : Nat) : Int) r = top := by
  obtain ⟨k, rfl⟩ : ∃ k, r = 2 * k := ⟨r / 2, by omega⟩
  have hk : (k : ℚ) ≠ 0 := by
    have : 0 < k := by omega
    exact_mod_cast this.ne'
  have e : 2 * k / 2 = k := by omega
  have h : circularRadicand (k : Int) (2 * k) = 1 := by
    unfold circularRadicand
    have : 2 * (((k : Int) : ℚ) / ((2 * k : Nat) : ℚ)) - 1 = 0 := by
      push_cast
      field_simp
    rw [this]
    simp
  rw [e]
  simp [circularDutyReal, h]

/-- C14: with the `float64` expression of `stepCircular` evaluated in real
arithmetic, for every top value and every even resolution `r > 0`, a breather
that is not holding and has `smoothing = r` writes duty `0` at step `0` and
duty `Top` at step `r/2`. -/
theorem C14_circular_start_and_mid (top w r : Nat) (now : Int) (st : Sys) (hr : 0 < r)
    (heven : r % 2 = 0) (hsm : st.b.smoothing = r) (hh : st.b.holding = false) :
    circularDutyReal top 0 r = 0 ∧ circularDutyReal top ((r / 2 : Nat) : Int) r = top ∧
      (st.b.step = 0 →
        ∃ t, stepCircular (realMachine top w) now st = Except.ok t ∧
          t.out = st.out ++ [Out.pwmSet st.b.pChan 0]) ∧
      (st.b.step = ((r / 2 : Nat) : Int) →
        ∃ t, stepCircular (realMachine top w) now st = Except.ok t ∧
          t.out = st.out ++ [Out.pwmSet st.b.pChan top]) := by
  refine ⟨circularDutyReal_start top r, circularDutyReal_mid top r hr heven, fun h0 => ?_,
    fun hm => ?_⟩
  · refine ⟨_, stepCircular_real top w now st hh, ?_⟩
    show st.out ++ [Out.pwmSet st.b.pChan (circularDutyReal top st.b.step st.b.smoothing)] = _
    rw [h0, hsm, circularDutyReal_start]
  · refine ⟨_, stepCircular_real top w now st hh, ?_⟩
    show st.out ++ [Out.pwmSet st.b.pChan (circularDutyReal top st.b.step st.b.smoothing)] = _
    rw [hm, hsm, circularDutyReal_mid top r hr heven]


theorem C14_circular_start_and_mid_witness :
    0 < 750 ∧ 750 % 2 = 0 ∧ (applyConf bouncy (New 13 0).b).smoothing = 750 ∧
      (applyConf bouncy (New 13 0).b).holding = false ∧
      (circularDutyReal 65535 0 750 = 0 ∧
        circularDutyReal 65535 ((750 / 2 : Nat) : Int) 750 = 65535 ∧
        ((applyConf bouncy (New 13 0).b).step = 0 →
          ∃ t,
            stepCircular (realMachine 65535 32) 5
                { New 13 0 with b := applyConf bouncy (New 13 0).b } =
              Except.ok t ∧
            t.out = (New 13 0).out ++ [Out.pwmSet 0 0]) ∧
        ((applyConf bouncy (New 13 0).b).step = ((750 / 2 : Nat) : Int) →
          ∃ t,
            stepCircular (realMachine 65535 32) 5
                { New 13 0 with b := applyConf bouncy (New 13 0).b } =
              Except.ok t ∧
            t.out = (New 13 0).out ++ [Out.pwmSet 0 65535])) :=
  ⟨by decide, by decide, rfl, rfl,
    C14_circular_start_and_mid 65535 32 750 5
      { New 13 0 with b := applyConf bouncy (New 13 0).b } (by decide) (by decide) rfl rfl⟩

theorem gaussianExponent_nonpos (s : Int) (r : Nat) (beta gamma : ℚ) :
    gaussianExponent s r beta gamma ≤ 0 := by
  unfold gaussianExponent
  have := sq_nonneg ((((s : ℚ) / (r : ℚ)) - beta) / gamma)
  linarith

theorem gaussianExponent_eq_zero_iff (s : Int) (r : Nat) (beta gamma : ℚ) (hg : gamma ≠ 0) :
    gaussianExponent s r beta gamma = 0 ↔ (s : ℚ) / (r : ℚ) = beta := by
  unfold gaussianExponent
  constructor
  · intro h
    have h2 : ((((s : ℚ) / (r : ℚ)) - beta) / gamma) ^ 2 = 0 := by linarith
    have h3 : (((s : ℚ) / (r : ℚ)) - beta) / gamma = 0 := by
      simpa using h2
    have h4 : ((s : ℚ) / (r : ℚ)) - beta = 0 := by
      rcases div_eq_zero_iff.mp h3 with h | h
      · exact h
      · exact absurd h hg
    linarith
  · intro h
    rw [h]
    simp

theorem gaussianDutyReal_of_ne (top : Nat) (s : Int) (r : Nat) (beta gamma : ℚ)
    (hr : r ≠ 0) (hg : gamma ≠ 0) :
    gaussianDutyReal top s r beta gamma =
      ⌊(top : ℝ) * Real.exp ((gaussianExponent s r beta gamma : ℚ) : ℝ)⌋₊ := by
  simp [gaussianDutyReal, hr, hg]

theorem gaussianDutyReal_le (top : Nat) (s : Int) (r : Nat) (beta gamma : ℚ) :
    gaussianDutyReal top s r beta gamma ≤ top := by
  unfold gaussianDutyReal
  split
  · exact Nat.zero_le top
  · apply Nat.floor_le_of_le
    have hE : ((gaussianExponent s r beta gamma : ℚ) : ℝ) ≤ 0 := by
      exact_mod_cast gaussianExponent_nonpos s r beta gamma
    have he : Real.exp ((gaussianExponent s r beta gamma : ℚ) : ℝ) ≤ 1 :=
      Real.exp_le_one_iff.mpr hE
    have ht : (0 : ℝ) ≤ top := Nat.cast_nonneg top
    nlinarith

theorem gaussianDutyReal_peak (top : Nat) (s : Int) (r : Nat) (beta gamma : ℚ)
    (hr : r ≠ 0) (hg : gamma ≠ 0) (h : gaussianExponent s r beta gamma = 0) :
    gaussianDutyReal top s r beta gamma = top := by
  rw [gaussianDutyReal_of_ne top s r beta gamma hr hg]
  simp [h]

theorem exp_32_gt (top : Nat) (h : top < 2 ^ 32) : (top : ℝ) < Real.exp 32 := by
  have h2 : (2 : ℝ) ≤ Real.exp 1 := by
    have := Real.add_one_le_exp (1 : ℝ)
    linarith
  have h3 : (2 : ℝ) ^ 32 ≤ Real.exp 1 ^ 32 := pow_le_pow_left₀ (by norm_num) h2 32
  have h4 : Real.exp 1 ^ 32 = Real.exp 32 := by
    rw [← Real.exp_nat_mul]
    norm_num
  have h6 : (top : ℝ) < 2 ^ 32 := by exact_mod_cast h
  linarith

/-- With an exponent of at most `-32` the duty is `0` for every top value below
`2^32`. -/
theorem gaussianDutyReal_far (top : Nat) (s : Int) (r : Nat) (beta gamma : ℚ)
    (h : top < 2 ^ 32) (he : gaussianExponent s r beta gamma ≤ -32) :
    gaussianDutyReal top s r beta gamma = 0 := by
  unfold gaussianDutyReal
  split
  · rfl
  · rw [Nat.floor_eq_zero]
    have hx := exp_32_gt top h
    have hpos : 0 < Real.exp 32 := Real.exp_pos _
    have hE : ((gaussianExponent s r beta gamma : ℚ) : ℝ) ≤ -32 := by
      exact_mod_cast he
    have h1 : Real.exp ((gaussianExponent s r beta gamma : ℚ) : ℝ) ≤ Real.exp (-32) :=
      Real.exp_le_exp.mpr hE
    have h2 : Real.exp (-32) = (Real.exp 32)⁻¹ := Real.exp_neg 32
    have ht : (0 : ℝ) ≤ top := Nat.cast_nonneg top
    have h3 : (top : ℝ) * (Real.exp 32)⁻¹ < 1 := by
      rw [← div_eq_mul_inv, div_lt_one hpos]
      exact hx
    calc (top : ℝ) * Real.exp ((gaussianExponent s r beta gamma : ℚ) : ℝ)
        ≤ (top : ℝ) * Real.exp (-32) := mul_le_mul_of_nonneg_left h1 ht
      _ = (top : ℝ) * (Real.exp 32)⁻¹ := by rw [h2]
      _ < 1 := h3

/-- C13 (counterexample): with a PWM top value of `0` and the parameters of
`pingy` (`beta = 0.5`, `gamma = 0.01`, `r = 750`), the duty at step `0` is `0`,
which equals the top value although `step/r = 0` is not `beta`. -/
theorem C13_gaussian_top_zero :
    gaussianDutyReal 0 0 pingy.Smoothing pingy.Beta pingy.Gamma = 0 ∧
      ¬ (((0 : Int) : ℚ) / ((pingy.Smoothing : Nat) : ℚ) = pingy.Beta) := by
  constructor
  · exact Nat.le_zero.mp (gaussianDutyReal_le 0 0 _ _ _)
  · norm_num [pingy]

/-- C13 (amended): with the `float64` expression of `stepGaussian` evaluated in
real arithmetic, for every top value, resolution `r > 0`, `gamma ≠ 0` and step
`s`: the duty is at most `Top`, and it equals `Top` when `s/r = beta`; with the
parameters of `pingy` (`beta = 0.5`, `gamma = 0.01`, `r = 750`) it is `Top` at
step `375` and, for `Top < 2^32`, it is `0` at steps `0` and `750`; and a call
of `stepGaussian` on a breather that is not holding writes exactly this
duty. -/
theorem C13_gaussian_peak_and_bound (top w r : Nat) (s : Int) (beta gamma : ℚ) (hr : 0 < r)
    (hg : gamma ≠ 0) :
    gaussianDutyReal top s r beta gamma ≤ top ∧
      ((s : ℚ) / (r : ℚ) = beta → gaussianDutyReal top s r beta gamma = top) ∧
      gaussianDutyReal top 375 pingy.Smoothing pingy.Beta pingy.Gamma = top ∧
      (top < 2 ^ 32 →
        gaussianDutyReal top 0 pingy.Smoothing pingy.Beta pingy.Gamma = 0 ∧
          gaussianDutyReal top 750 pingy.Smoothing pingy.Beta pingy.Gamma = 0) ∧
      ∀ (now : Int) (st : Sys), st.b.holding = false →
        ∃ t, stepGaussian (realMachine top w) now st = Except.ok t ∧
          t.out =
            st.out ++
              [Out.pwmSet st.b.pChan
                (gaussianDutyReal top st.b.step st.b.smoothing st.b.beta st.b.gamma)] := by
  have hr0 : r ≠ 0 := by omega
  refine ⟨gaussianDutyReal_le top s r beta gamma, fun h => ?_, ?_,
    fun hlt => ⟨?_, ?_⟩, fun now st hh => ⟨_, stepGaussian_real top w now st hh, rfl⟩⟩
  · exact gaussianDutyReal_peak top s r beta gamma hr0 hg
      ((gaussianExponent_eq_zero_iff s r beta gamma hg).mpr h)
  · exact gaussianDutyReal_peak top 375 _ _ _ (by decide) (by norm_num [pingy])
      (by norm_num [gaussianExponent, pingy])
  · exact gaussianDutyReal_far top 0 _ _ _ hlt (by norm_num [gaussianExponent, pingy])
  · exact gaussianDutyReal_far top 750 _ _ _ hlt (by norm_num [gaussianExponent, pingy])

theorem C13_gaussian_peak_and_bound_witness :
    0 < 750 ∧ (pingy.Gamma ≠ 0) ∧
      (gaussianDutyReal 65535 375 750 pingy.Beta pingy.Gamma ≤ 65535 ∧
        (((375 : Int) : ℚ) / ((750 : Nat) : ℚ) = pingy.Beta →
          gaussianDutyReal 65535 375 750 pingy.Beta pingy.Gamma = 65535) ∧
        gaussianDutyReal 65535 375 pingy.Smoothing pingy.Beta pingy.Gamma = 65535 ∧
        (65535 < 2 ^ 32 →
          gaussianDutyReal 65535 0 pingy.Smoothing pingy.Beta pingy.Gamma = 0 ∧
            gaussianDutyReal 65535 750 pingy.Smoothing pingy.Beta pingy.Gamma = 0) ∧
        ∀ (now : Int) (st : Sys), st.b.holding = false →
          ∃ t, stepGaussian (realMachine 65535 32) now st = Except.ok t ∧
            t.out =
              st.out ++
                [Out.pwmSet st.b.pChan
                  (gaussianDutyReal 65535 st.b.step st.b.smoothing st.b.beta st.b.gamma)]) :=
  ⟨by decide, by norm_num [pingy],
    C13_gaussian_peak_and_bound 65535 32 750 375 pingy.Beta pingy.Gamma (by decide)
      (by norm_num [pingy])⟩

end Breath
